import Mathlib

/-! # Overlay message framing (`src/ripple/overlay/Message.h`)

A shallow embedding of the header codec of `ripple::Message`:

* the two function templates `Message::size (FwdIter, FwdIter)` and
  `Message::type (FwdIter, FwdIter)`, generic in the iterator type exactly as
  the templates are, together with their buffer-sequence overloads;
* two iterator types the templates are instantiated with: an iterator into
  one contiguous byte sequence, and the chunk-walking iterator returned by
  `buffers_begin` / `buffers_end`;
* the construction of a `Message` and the equality of two (declared in the
  header, defined elsewhere);
* the same two templates as transformers of a call state that holds the
  caller's bytes and the log of the positions read.

Conventions.  `std::uint8_t` is `Byte = Fin 256`.  `std::size_t` is an
unsigned integer of `w` bits; every `size_t` operation is written with its
reduction modulo `2 ^ w`, and `w` is an explicit argument.  Dereferencing an
iterator that does not point at an element is undefined behaviour in the
source; here it yields `none`, so a result `some v` says that every read the
function made was of an existing element.
-/

namespace ripple

/-- One `std::uint8_t`. -/
abbrev Byte := Fin 256

/-- The operations the templates use on their iterator type `FwdIter`:
`*it`, `++it` and `std::distance (first, last)`. -/
class FwdIter (I : Type) where
  /-- The byte `*it`, or `none` when `it` points at no element. -/
  deref : I → Option Byte
  /-- The iterator after `++it`. -/
  incr : I → I
  /-- The signed result of `std::distance (first, last)`. -/
  distance : I → I → Int

/-- The iterator `std::next (it, n)`: `it` incremented `n` times. -/
def next {I : Type} [FwdIter I] (it : I) : Nat → I
  | 0 => it
  | n + 1 => next (FwdIter.incr it) n

/-- Conversion of a `difference_type` value to `std::size_t` (`w` bits), as
the comparison `std::distance (first, last) < Message::kHeaderBytes` performs
it on its signed left operand: a non-negative value is unchanged, a negative
one becomes `d + 2 ^ w`. -/
def toSizeT (w : Nat) (d : Int) : Nat :=
  if 0 ≤ d then d.toNat else (d + 2 ^ w).toNat

/-- The `size_t` value of `x << k`. -/
def shlSizeT (w : Nat) (x k : Nat) : Nat :=
  (x <<< k) % 2 ^ w

/-- The `size_t` value of `x + y`. -/
def addSizeT (w : Nat) (x y : Nat) : Nat :=
  (x + y) % 2 ^ w

/-! ## Iterators into one contiguous byte sequence -/

/-- An iterator into a contiguous sequence of bytes (`std::vector<uint8_t>`
iterator, or a pointer): the sequence and an index into it.  The index may
equal the length (the past-the-end iterator). -/
structure ByteIter where
  data : List Byte
  pos : Nat
deriving DecidableEq, Repr

namespace ByteIter

/-- The iterator `v.begin ()`. -/
def beginOf (v : List Byte) : ByteIter := ⟨v, 0⟩

/-- The iterator `v.end ()`. -/
def endOf (v : List Byte) : ByteIter := ⟨v, v.length⟩

/-- The pair `(first, last)` delimits a range: both point into the same
sequence, `first` is not after `last`, and `last` is not after the end. -/
def ValidRange (first last : ByteIter) : Prop :=
  first.data = last.data ∧ first.pos ≤ last.pos ∧ last.pos ≤ first.data.length

instance (first last : ByteIter) : Decidable (ValidRange first last) := by
  unfold ValidRange
  infer_instance

/-- The bytes of the range `[first, last)`, in order. -/
def bytes (first last : ByteIter) : List Byte :=
  (first.data.drop first.pos).take (last.pos - first.pos)

end ByteIter

instance : FwdIter ByteIter where
  deref it := it.data[it.pos]?
  incr it := ⟨it.data, it.pos + 1⟩
  distance first last := (last.pos : Int) - (first.pos : Int)

namespace Message

/-- Number of bytes in a message header (`Message::kHeaderBytes`). -/
def kHeaderBytes : Nat := 6

/-- The template `Message::size (FwdIter first, FwdIter last)`. -/
def size {I : Type} [FwdIter I] (w : Nat) (first last : I) : Option Nat :=
  if toSizeT w (FwdIter.distance first last) < kHeaderBytes then
    some 0
  else do
    -- n  = std::size_t{*first++} << 24;
    let b0 ← FwdIter.deref first
    let first := FwdIter.incr first
    let n := shlSizeT w b0.val 24
    -- n += std::size_t{*first++} << 16;
    let b1 ← FwdIter.deref first
    let first := FwdIter.incr first
    let n := addSizeT w n (shlSizeT w b1.val 16)
    -- n += std::size_t{*first++} <<  8;
    let b2 ← FwdIter.deref first
    let first := FwdIter.incr first
    let n := addSizeT w n (shlSizeT w b2.val 8)
    -- n += std::size_t{*first};
    let b3 ← FwdIter.deref first
    let n := addSizeT w n b3.val
    some n

/-- The template `Message::type (FwdIter first, FwdIter last)`.  The operands
of `<<` and `|` are `int`s holding byte values, so the result is computed on
naturals and returned as the `int` it is. -/
def type {I : Type} [FwdIter I] (w : Nat) (first last : I) : Option Int :=
  if toSizeT w (FwdIter.distance first last) < kHeaderBytes then
    some 0
  else do
    -- (int{*std::next(first, 4)} << 8) | *std::next(first, 5)
    let b4 ← FwdIter.deref (next first 4)
    let b5 ← FwdIter.deref (next first 5)
    some (Int.ofNat ((b4.val <<< 8) ||| b5.val))

end Message

/-! ## Iterators over a buffer sequence -/

/-- Modelled from the spec: `boost::asio::buffers_iterator<BufferSequence,
std::uint8_t>` is library code outside `src/`.  A buffer sequence is a list of
chunks, each a run of bytes; the iterator walks "logically ordered bytes that
may span multiple disjoint underlying storage regions".  Its state is the part
of the current chunk from the cursor on (`cur`), the chunks after the current
one (`rest`), and the number of bytes passed so far (`position`).  An iterator
that points at a byte has a non-empty `cur`. -/
structure BuffersIter where
  cur : List Byte
  rest : List (List Byte)
  position : Nat
deriving DecidableEq, Repr

namespace BuffersIter

/-- Move to the start of the first chunk of `chunks` that holds a byte,
passing over empty chunks; with no such chunk the iterator is at the end. -/
def enter (position : Nat) : List (List Byte) → BuffersIter
  | [] => ⟨[], [], position⟩
  | [] :: chunks => enter position chunks
  | (b :: bs) :: chunks => ⟨b :: bs, chunks, position⟩

/-- The iterator `buffers_iterator::begin (buffers)`. -/
def beginOf (buffers : List (List Byte)) : BuffersIter :=
  enter 0 buffers

/-- The iterator `buffers_iterator::end (buffers)`: past every chunk, its
position the total number of bytes. -/
def endOf (buffers : List (List Byte)) : BuffersIter :=
  ⟨[], [], (buffers.map List.length).sum⟩

/-- The bytes from the iterator to the end of the sequence, in logical order. -/
def remaining (it : BuffersIter) : List Byte :=
  it.cur ++ it.rest.flatten

end BuffersIter

instance : FwdIter BuffersIter where
  deref it := it.cur.head?
  incr it :=
    match it.cur with
    | [] => ⟨[], it.rest, it.position + 1⟩
    | [_] => BuffersIter.enter (it.position + 1) it.rest
    | _ :: b :: bs => ⟨b :: bs, it.rest, it.position + 1⟩
  distance first last := (last.position : Int) - (first.position : Int)

namespace Message

/-- The private helper `Message::buffers_begin (buffers)`. -/
def buffers_begin (buffers : List (List Byte)) : BuffersIter :=
  BuffersIter.beginOf buffers

/-- The private helper `Message::buffers_end (buffers)`. -/
def buffers_end (buffers : List (List Byte)) : BuffersIter :=
  BuffersIter.endOf buffers

/-- The overload `Message::size (BufferSequence const& buffers)`. -/
def sizeOfBuffers (w : Nat) (buffers : List (List Byte)) : Option Nat :=
  size w (buffers_begin buffers) (buffers_end buffers)

/-- The overload `Message::type (BufferSequence const& buffers)`. -/
def typeOfBuffers (w : Nat) (buffers : List (List Byte)) : Option Int :=
  type w (buffers_begin buffers) (buffers_end buffers)

end Message

/-! ## Construction of a message -/

/-- The data members of `class Message`: the packed bytes `mBuffer` and the
traffic category `mCategory`. -/
structure Message where
  mBuffer : List Byte
  mCategory : Int
deriving DecidableEq, Repr

/-- The byte with value `x mod 256`. -/
def toByte (x : Nat) : Byte :=
  ⟨x % 256, Nat.mod_lt x (by decide)⟩

/-- Modelled from the spec: a value "as big-endian unsigned 32-bit", the four
bytes of `n mod 2 ^ 32`, most significant first. -/
def bigEndian32 (n : Nat) : List Byte :=
  [toByte (n % 2 ^ 32 / 2 ^ 24), toByte (n % 2 ^ 32 / 2 ^ 16),
    toByte (n % 2 ^ 32 / 2 ^ 8), toByte (n % 2 ^ 32)]

/-- Modelled from the spec: a value "as big-endian unsigned 16-bit", the two
bytes of `t mod 2 ^ 16`, most significant first. -/
def bigEndian16 (t : Int) : List Byte :=
  [toByte ((t % 2 ^ 16).toNat / 2 ^ 8), toByte (t % 2 ^ 16).toNat]

/-- Store the bytes `src` into `buf` at the indices `off`, `off + 1`, ...;
the length of `buf` does not change. -/
def writeAt (buf : List Byte) (off : Nat) : List Byte → List Byte
  | [] => buf
  | b :: bs => writeAt (buf.set off b) (off + 1) bs

namespace Message

/-- Retrieve the packed message data (`Message::getBuffer`). -/
def getBuffer (self : Message) : List Byte :=
  self.mBuffer

/-- Get the traffic category (`Message::getCategory`). -/
def getCategory (self : Message) : Int :=
  self.mCategory

/-- Modelled from the spec: the body of `Message::encodeHeader (unsigned size,
int type)` is not in `Message.h`, which only declares it with the comment
"Encodes the size and type into a header at the beginning of buf".  The header
is the spec's: "first four bytes = `n` as big-endian unsigned 32-bit; next two
bytes = `type` as big-endian unsigned 16-bit". -/
def encodeHeader (self : Message) (size : Nat) (type : Int) : Message :=
  { self with mBuffer := writeAt self.mBuffer 0 (bigEndian32 size ++ bigEndian16 type) }

/-- Modelled from the spec: the constructor `Message::Message (message, type)`,
whose body is not in `Message.h`.  The structured message is represented by
its serialized bytes, so its serialized length is their number.  Steps, as the
spec gives them: compute `n`; allocate a buffer of exactly `6 + n` bytes; write
the header; serialize the message into the remaining `n` bytes; derive the
category from `type` by the mapping `categorize`, and store it beside the
buffer. -/
def ctor (categorize : Int → Int) (message : List Byte) (type : Int) : Message :=
  let n := message.length
  let self : Message := { mBuffer := List.replicate (kHeaderBytes + n) 0, mCategory := 0 }
  let self := self.encodeHeader n type
  let self := { self with mBuffer := writeAt self.mBuffer kHeaderBytes message }
  { self with mCategory := categorize type }

end Message

/-! ## Equality of messages -/

/-- Bytewise comparison of two byte sequences, walking both together: true
when they end together and agree at every place before. -/
def bytewiseEqual : List Byte → List Byte → Bool
  | [], [] => true
  | x :: xs, y :: ys => x == y && bytewiseEqual xs ys
  | _, _ => false

namespace Message

/-- Modelled from the spec: the body of `Message::operator==` is not in
`Message.h`, which declares it under the comment "Determine bytewise
equality".  The spec's `equals`: "two envelopes are equal iff their backing
buffers are byte-for-byte identical (same length, same header, same payload
bytes).  Category is not compared". -/
def equals (self other : Message) : Bool :=
  bytewiseEqual self.mBuffer other.mBuffer

end Message

/-! ## Calls as state transformers -/

/-- The state a call of `size` or `type` runs against: the caller's view of the
bytes (`V` is one contiguous sequence, or a buffer sequence), and the log of
the logical positions the call has dereferenced, oldest first. -/
structure CallState (V : Type) where
  view : V
  reads : List Nat
deriving DecidableEq, Repr

namespace CallState

/-- The step `*it`: the byte `it` points at, with the position `addr it`
added to the log; `none` when `it` points at no element.  The view is not
written. -/
def deref {V I : Type} [FwdIter I] (addr : I → Nat) (s : CallState V) (it : I) :
    Option (Byte × CallState V) :=
  (FwdIter.deref it).map fun b => (b, { s with reads := s.reads ++ [addr it] })

end CallState

namespace Message

/-- The template `Message::size (FwdIter first, FwdIter last)`, statement by
statement, as a transformer of the call state.  `first` and `last` are the
call's own copies of its arguments. -/
def sizeExec {V I : Type} [FwdIter I] (addr : I → Nat) (w : Nat) (first last : I)
    (s : CallState V) : Option (Nat × CallState V) :=
  if toSizeT w (FwdIter.distance first last) < kHeaderBytes then
    some (0, s)
  else do
    -- n  = std::size_t{*first++} << 24;
    let (b0, s) ← s.deref addr first
    let first := FwdIter.incr first
    let n := shlSizeT w b0.val 24
    -- n += std::size_t{*first++} << 16;
    let (b1, s) ← s.deref addr first
    let first := FwdIter.incr first
    let n := addSizeT w n (shlSizeT w b1.val 16)
    -- n += std::size_t{*first++} <<  8;
    let (b2, s) ← s.deref addr first
    let first := FwdIter.incr first
    let n := addSizeT w n (shlSizeT w b2.val 8)
    -- n += std::size_t{*first};
    let (b3, s) ← s.deref addr first
    let n := addSizeT w n b3.val
    some (n, s)

/-- The template `Message::type (FwdIter first, FwdIter last)` as a
transformer of the call state. -/
def typeExec {V I : Type} [FwdIter I] (addr : I → Nat) (w : Nat) (first last : I)
    (s : CallState V) : Option (Int × CallState V) :=
  if toSizeT w (FwdIter.distance first last) < kHeaderBytes then
    some (0, s)
  else do
    -- (int{*std::next(first, 4)} << 8) | *std::next(first, 5)
    let (b4, s) ← s.deref addr (next first 4)
    let (b5, s) ← s.deref addr (next first 5)
    some (Int.ofNat ((b4.val <<< 8) ||| b5.val), s)

/-- A call `Message::size (first, last)` where `first` and `last` are the
iterators at the positions `i` and `j` of the caller's bytes. -/
def sizeCall (w i j : Nat) (s : CallState (List Byte)) : Option (Nat × CallState (List Byte)) :=
  sizeExec ByteIter.pos w (ByteIter.mk s.view i) (ByteIter.mk s.view j) s

/-- A call `Message::type (first, last)` where `first` and `last` are the
iterators at the positions `i` and `j` of the caller's bytes. -/
def typeCall (w i j : Nat) (s : CallState (List Byte)) : Option (Int × CallState (List Byte)) :=
  typeExec ByteIter.pos w (ByteIter.mk s.view i) (ByteIter.mk s.view j) s

/-- A call `Message::size (buffers)` on the caller's buffer sequence. -/
def sizeOfBuffersCall (w : Nat) (s : CallState (List (List Byte))) :
    Option (Nat × CallState (List (List Byte))) :=
  sizeExec BuffersIter.position w (buffers_begin s.view) (buffers_end s.view) s

/-- A call `Message::type (buffers)` on the caller's buffer sequence. -/
def typeOfBuffersCall (w : Nat) (s : CallState (List (List Byte))) :
    Option (Int × CallState (List (List Byte))) :=
  typeExec BuffersIter.position w (buffers_begin s.view) (buffers_end s.view) s

end Message

end ripple


/-! ## Helper lemmas -/

namespace ripple

theorem toSizeT_natCast (w n : Nat) : toSizeT w (n : Int) = n := by
  simp [toSizeT]

/-- The four shifted bytes add up without wrapping once `size_t` has 32 bits. -/
theorem sum_sizeT (w : Nat) (hw : 32 ≤ w) (b0 b1 b2 b3 : Byte) :
    addSizeT w (addSizeT w (addSizeT w (shlSizeT w b0.val 24) (shlSizeT w b1.val 16))
      (shlSizeT w b2.val 8)) b3.val
      = b0.val * 2 ^ 24 + b1.val * 2 ^ 16 + b2.val * 2 ^ 8 + b3.val := by
  have hp : 2 ^ 32 ≤ 2 ^ w := Nat.pow_le_pow_right (by decide) hw
  have h0 := b0.isLt
  have h1 := b1.isLt
  have h2 := b2.isLt
  have h3 := b3.isLt
  simp only [addSizeT, shlSizeT, Nat.shiftLeft_eq]
  have e0 : b0.val * 2 ^ 24 % 2 ^ w = b0.val * 2 ^ 24 := Nat.mod_eq_of_lt (by omega)
  have e1 : b1.val * 2 ^ 16 % 2 ^ w = b1.val * 2 ^ 16 := Nat.mod_eq_of_lt (by omega)
  have e2 : b2.val * 2 ^ 8 % 2 ^ w = b2.val * 2 ^ 8 := Nat.mod_eq_of_lt (by omega)
  rw [e0, e1, e2]
  have e3 : (b0.val * 2 ^ 24 + b1.val * 2 ^ 16) % 2 ^ w = b0.val * 2 ^ 24 + b1.val * 2 ^ 16 :=
    Nat.mod_eq_of_lt (by omega)
  rw [e3]
  have e4 : (b0.val * 2 ^ 24 + b1.val * 2 ^ 16 + b2.val * 2 ^ 8) % 2 ^ w
      = b0.val * 2 ^ 24 + b1.val * 2 ^ 16 + b2.val * 2 ^ 8 := Nat.mod_eq_of_lt (by omega)
  rw [e4]
  exact Nat.mod_eq_of_lt (by omega)

/-- Shifting a byte left by eight and or-ing in a byte is `hi * 2 ^ 8 + lo`. -/
theorem shl_or_byte (hi lo : Byte) : (hi.val <<< 8) ||| lo.val = hi.val * 2 ^ 8 + lo.val := by
  have h := Nat.mul_add_lt_is_or (i := 8) (b := lo.val) lo.isLt hi.val
  rw [Nat.shiftLeft_eq, Nat.mul_comm hi.val (2 ^ 8), ← h]

namespace Message

/-- The short-input branch of `size`. -/
theorem size_of_short {I : Type} [FwdIter I] (w : Nat) (first last : I)
    (h : toSizeT w (FwdIter.distance first last) < kHeaderBytes) :
    size w first last = some 0 := by
  simp [size, h]

/-- The short-input branch of `type`. -/
theorem type_of_short {I : Type} [FwdIter I] (w : Nat) (first last : I)
    (h : toSizeT w (FwdIter.distance first last) < kHeaderBytes) :
    type w first last = some 0 := by
  simp [type, h]

/-- The reading branch of `size`, in terms of the bytes at the first four
positions reached from `first`. -/
theorem size_of_reads {I : Type} [FwdIter I] (w : Nat) (hw : 32 ≤ w) (first last : I)
    (b0 b1 b2 b3 : Byte)
    (h : kHeaderBytes ≤ toSizeT w (FwdIter.distance first last))
    (h0 : FwdIter.deref (next first 0) = some b0)
    (h1 : FwdIter.deref (next first 1) = some b1)
    (h2 : FwdIter.deref (next first 2) = some b2)
    (h3 : FwdIter.deref (next first 3) = some b3) :
    size w first last = some (b0.val * 2 ^ 24 + b1.val * 2 ^ 16 + b2.val * 2 ^ 8 + b3.val) := by
  simp only [next] at h0 h1 h2 h3
  have hn : ¬ toSizeT w (FwdIter.distance first last) < kHeaderBytes := Nat.not_lt.mpr h
  simp only [size, hn, if_false, h0, h1, h2, h3, Option.bind_eq_bind, Option.some_bind,
    sum_sizeT w hw]

/-- The reading branch of `type`, in terms of the bytes at the positions four
and five steps from `first`. -/
theorem type_of_reads {I : Type} [FwdIter I] (w : Nat) (first last : I) (b4 b5 : Byte)
    (h : kHeaderBytes ≤ toSizeT w (FwdIter.distance first last))
    (h4 : FwdIter.deref (next first 4) = some b4)
    (h5 : FwdIter.deref (next first 5) = some b5) :
    type w first last = some (Int.ofNat ((b4.val <<< 8) ||| b5.val)) := by
  have hn : ¬ toSizeT w (FwdIter.distance first last) < kHeaderBytes := Nat.not_lt.mpr h
  simp only [type, hn, if_false, h4, h5, Option.bind_eq_bind, Option.some_bind]

end Message

namespace ByteIter

theorem next_eq (it : ByteIter) (k : Nat) : next it k = ⟨it.data, it.pos + k⟩ := by
  induction k generalizing it with
  | zero => rfl
  | succ k ih =>
    show next (FwdIter.incr it) k = _
    rw [ih]
    show (⟨it.data, it.pos + 1 + k⟩ : ByteIter) = _
    congr 1
    omega

theorem deref_next (it : ByteIter) (k : Nat) :
    FwdIter.deref (next it k) = it.data[it.pos + k]? := by
  rw [next_eq]
  rfl

/-- The distance of a valid range is the number of its bytes. -/
theorem distance_eq (first last : ByteIter) (hv : ValidRange first last) :
    FwdIter.distance first last = ((bytes first last).length : Int) := by
  obtain ⟨_, h1, h2⟩ := hv
  show (last.pos : Int) - (first.pos : Int) = _
  simp only [bytes, List.length_take, List.length_drop]
  omega

/-- The byte `k` of a range is the byte `k` places after `first`. -/
theorem getElem?_bytes (first last : ByteIter) (k : Nat) (hk : k < (bytes first last).length) :
    first.data[first.pos + k]? = (bytes first last)[k]? := by
  simp only [bytes, List.length_take, List.length_drop] at hk
  simp only [bytes, List.getElem?_take, List.getElem?_drop]
  rw [if_pos (by omega)]

end ByteIter

end ripple

/-! ### The buffer built by the constructor -/

namespace ripple

theorem set_length_append (pre tl : List Byte) (m s : Byte) :
    (pre ++ m :: tl).set pre.length s = pre ++ s :: tl := by
  induction pre with
  | nil => rfl
  | cons p pre ih => simp [ih]

/-- Writing `src` over a middle part of the same length replaces that part. -/
theorem writeAt_append (src pre mid post : List Byte) (h : mid.length = src.length) :
    writeAt (pre ++ mid ++ post) pre.length src = pre ++ src ++ post := by
  induction src generalizing pre mid with
  | nil =>
    have hm : mid = [] := List.length_eq_zero.mp h
    subst hm
    rfl
  | cons s ss ih =>
    cases mid with
    | nil => simp at h
    | cons m ms =>
      have hms : ms.length = ss.length := by simpa using h
      have hset : (pre ++ m :: ms ++ post).set pre.length s = (pre ++ [s]) ++ ms ++ post := by
        have hs := set_length_append pre (ms ++ post) m s
        simp only [List.append_assoc, List.cons_append, List.singleton_append, List.nil_append]
        exact hs
      show writeAt ((pre ++ m :: ms ++ post).set pre.length s) (pre.length + 1) ss = _
      rw [hset]
      have := ih (pre ++ [s]) ms hms
      simp only [List.length_append, List.length_singleton] at this
      rw [this]
      simp

namespace Message

/-- The constructed buffer is the six header bytes followed by the serialized
message. -/
theorem getBuffer_ctor (categorize : Int → Int) (message : List Byte) (type : Int) :
    (ctor categorize message type).getBuffer
      = bigEndian32 message.length ++ bigEndian16 type ++ message := by
  have h1 : writeAt (List.replicate (kHeaderBytes + message.length) 0) 0
      (bigEndian32 message.length ++ bigEndian16 type)
      = bigEndian32 message.length ++ bigEndian16 type ++ List.replicate message.length 0 := by
    have := writeAt_append (bigEndian32 message.length ++ bigEndian16 type) []
      (List.replicate kHeaderBytes 0) (List.replicate message.length 0) (by rfl)
    simp only [List.nil_append, List.length_nil] at this
    rw [List.replicate_add]
    exact this
  have h2 := writeAt_append message (bigEndian32 message.length ++ bigEndian16 type)
    (List.replicate message.length 0) [] (by simp)
  simp only [List.append_nil] at h2
  have h6 : (bigEndian32 message.length ++ bigEndian16 type).length = kHeaderBytes := rfl
  rw [h6] at h2
  simp only [ctor, encodeHeader, getBuffer, h1, h2]

/-- The four bytes of `bigEndian32 n` have the value `n mod 2 ^ 32`. -/
theorem bigEndian32_value (n : Nat) :
    (toByte (n % 2 ^ 32 / 2 ^ 24)).val * 2 ^ 24 + (toByte (n % 2 ^ 32 / 2 ^ 16)).val * 2 ^ 16
      + (toByte (n % 2 ^ 32 / 2 ^ 8)).val * 2 ^ 8 + (toByte (n % 2 ^ 32)).val = n % 2 ^ 32 := by
  simp only [toByte]
  omega

/-- The two bytes of `bigEndian16 t` have the value `t` when `t` fits 16 bits. -/
theorem bigEndian16_value (t : Int) (h0 : 0 ≤ t) (h1 : t < 2 ^ 16) :
    ((toByte ((t % 2 ^ 16).toNat / 2 ^ 8)).val : Int) * 2 ^ 8
      + ((toByte (t % 2 ^ 16).toNat).val : Int) = t := by
  simp only [toByte]
  omega

end Message

end ripple

/-! ### Decoding a range of a contiguous sequence -/

namespace ripple

namespace ByteIter

theorem validRange_whole (v : List Byte) : ValidRange (beginOf v) (endOf v) :=
  ⟨rfl, Nat.zero_le _, Nat.le_refl _⟩

theorem bytes_whole (v : List Byte) : bytes (beginOf v) (endOf v) = v := by
  simp [bytes, beginOf, endOf]

/-- A valid range with six leading bytes is at least a header long, and the
iterator `k < 6` steps from `first` points at byte `k`. -/
theorem header_of_bytes (w : Nat) (first last : ByteIter) (hv : ValidRange first last)
    (b0 b1 b2 b3 b4 b5 : Byte) (rest : List Byte)
    (hb : bytes first last = b0 :: b1 :: b2 :: b3 :: b4 :: b5 :: rest) :
    Message.kHeaderBytes ≤ toSizeT w (FwdIter.distance first last)
      ∧ ∀ k, k < 6 → FwdIter.deref (next first k)
          = (b0 :: b1 :: b2 :: b3 :: b4 :: b5 :: rest)[k]? := by
  constructor
  · rw [distance_eq first last hv, toSizeT_natCast, hb]
    simp [Message.kHeaderBytes]
  · intro k hk
    rw [deref_next, ← hb]
    exact getElem?_bytes first last k (by rw [hb]; simp; omega)

end ByteIter

namespace Message

theorem size_of_range (w : Nat) (hw : 32 ≤ w) (first last : ByteIter)
    (hv : ByteIter.ValidRange first last) (b0 b1 b2 b3 b4 b5 : Byte) (rest : List Byte)
    (hb : ByteIter.bytes first last = b0 :: b1 :: b2 :: b3 :: b4 :: b5 :: rest) :
    size w first last
      = some (b0.val * 2 ^ 24 + b1.val * 2 ^ 16 + b2.val * 2 ^ 8 + b3.val) := by
  obtain ⟨hd, hk⟩ := ByteIter.header_of_bytes w first last hv b0 b1 b2 b3 b4 b5 rest hb
  exact size_of_reads w hw first last b0 b1 b2 b3 hd
    ((hk 0 (by decide)).trans rfl) ((hk 1 (by decide)).trans rfl)
    ((hk 2 (by decide)).trans rfl) ((hk 3 (by decide)).trans rfl)

theorem type_of_range (w : Nat) (first last : ByteIter)
    (hv : ByteIter.ValidRange first last) (b0 b1 b2 b3 b4 b5 : Byte) (rest : List Byte)
    (hb : ByteIter.bytes first last = b0 :: b1 :: b2 :: b3 :: b4 :: b5 :: rest) :
    type w first last = some (Int.ofNat ((b4.val <<< 8) ||| b5.val)) := by
  obtain ⟨hd, hk⟩ := ByteIter.header_of_bytes w first last hv b0 b1 b2 b3 b4 b5 rest hb
  exact type_of_reads w first last b4 b5 hd ((hk 4 (by decide)).trans rfl)
    ((hk 5 (by decide)).trans (by simp))

/-- The value `type` returns on a six-byte header, as a sum. -/
theorem type_of_range_value (w : Nat) (first last : ByteIter)
    (hv : ByteIter.ValidRange first last) (b0 b1 b2 b3 b4 b5 : Byte) (rest : List Byte)
    (hb : ByteIter.bytes first last = b0 :: b1 :: b2 :: b3 :: b4 :: b5 :: rest) :
    type w first last = some ((b4.val : Int) * 2 ^ 8 + (b5.val : Int)) := by
  rw [type_of_range w first last hv b0 b1 b2 b3 b4 b5 rest hb, shl_or_byte]
  simp

/-- Decoding the frame `bigEndian32 n ++ bigEndian16 t ++ payload` over its
whole extent gives `n mod 2 ^ 32`. -/
theorem size_of_frame (w : Nat) (hw : 32 ≤ w) (n : Nat) (t : Int) (payload : List Byte) :
    size w (ByteIter.beginOf (bigEndian32 n ++ bigEndian16 t ++ payload))
      (ByteIter.endOf (bigEndian32 n ++ bigEndian16 t ++ payload)) = some (n % 2 ^ 32) := by
  have h := size_of_range w hw _ _
    (ByteIter.validRange_whole (bigEndian32 n ++ bigEndian16 t ++ payload))
    _ _ _ _ _ _ payload (ByteIter.bytes_whole _)
  rw [h, bigEndian32_value]

/-- Decoding the type of the frame `bigEndian32 n ++ bigEndian16 t ++ payload`
gives `t` when `t` fits 16 bits. -/
theorem type_of_frame (w : Nat) (n : Nat) (t : Int) (payload : List Byte)
    (h0 : 0 ≤ t) (h1 : t < 2 ^ 16) :
    type w (ByteIter.beginOf (bigEndian32 n ++ bigEndian16 t ++ payload))
      (ByteIter.endOf (bigEndian32 n ++ bigEndian16 t ++ payload)) = some t := by
  have h := type_of_range_value w _ _
    (ByteIter.validRange_whole (bigEndian32 n ++ bigEndian16 t ++ payload))
    _ _ _ _ _ _ payload (ByteIter.bytes_whole _)
  rw [h, bigEndian16_value t h0 h1]

end Message

end ripple

/-! ### Walking a buffer sequence -/

namespace ripple

namespace BuffersIter

/-- Entering a chunk list yields an iterator whose remaining bytes are the
concatenation of the chunks, at the given position, pointing at a byte unless
no byte is left. -/
theorem enter_spec (p : Nat) (chunks : List (List Byte)) :
    ((enter p chunks).cur = [] → (enter p chunks).rest.flatten = [])
      ∧ remaining (enter p chunks) = chunks.flatten
      ∧ (enter p chunks).position = p := by
  induction chunks with
  | nil => simp [enter, remaining]
  | cons c chunks ih =>
    cases c with
    | nil => simpa [enter] using ih
    | cons b bs => simp [enter, remaining]

/-- One increment drops the first remaining byte and keeps the iterator
pointing at a byte unless no byte is left. -/
theorem incr_spec (it : BuffersIter) (h : it.cur = [] → it.rest.flatten = []) :
    ((FwdIter.incr it).cur = [] → (FwdIter.incr it).rest.flatten = [])
      ∧ remaining (FwdIter.incr it) = (remaining it).tail := by
  obtain ⟨cur, rest, p⟩ := it
  match cur, h with
  | [], h =>
    have hr : rest.flatten = [] := h rfl
    exact ⟨fun _ => hr, by simp [FwdIter.incr, remaining, hr]⟩
  | [b], _ =>
    have hs := enter_spec (p + 1) rest
    exact ⟨hs.1, by simpa [FwdIter.incr, remaining] using hs.2.1⟩
  | _ :: b :: bs, _ =>
    exact ⟨fun hc => by simp [FwdIter.incr] at hc, by simp [FwdIter.incr, remaining]⟩

/-- The iterator `k` steps on points at the `k`-th remaining byte. -/
theorem deref_next_remaining (it : BuffersIter) (h : it.cur = [] → it.rest.flatten = []) (k : Nat) :
    FwdIter.deref (next it k) = (remaining it)[k]? := by
  induction k generalizing it with
  | zero =>
    obtain ⟨cur, rest, p⟩ := it
    cases cur with
    | nil =>
      have hr : rest.flatten = [] := h rfl
      simp [next, FwdIter.deref, remaining, hr]
    | cons b bs => simp [next, FwdIter.deref, remaining]
  | succ k ih =>
    obtain ⟨hn, hr⟩ := incr_spec it h
    show FwdIter.deref (next (FwdIter.incr it) k) = _
    rw [ih (FwdIter.incr it) hn, hr, List.getElem?_tail]

/-- From `begin`, the iterator `k` steps on points at byte `k` of the
concatenated chunks. -/
theorem deref_next_beginOf (buffers : List (List Byte)) (k : Nat) :
    FwdIter.deref (next (beginOf buffers) k) = buffers.flatten[k]? := by
  obtain ⟨hn, hr, _⟩ := enter_spec 0 buffers
  rw [beginOf, deref_next_remaining _ hn, hr]

/-- The distance from `begin` to `end` is the total number of bytes. -/
theorem distance_beginOf_endOf (buffers : List (List Byte)) :
    FwdIter.distance (beginOf buffers) (endOf buffers) = (buffers.flatten.length : Int) := by
  obtain ⟨_, _, hp⟩ := enter_spec 0 buffers
  show ((endOf buffers).position : Int) - ((beginOf buffers).position : Int) = _
  rw [beginOf, hp, endOf, List.length_flatten]
  simp

end BuffersIter

namespace Message

/-- The result of `size` is determined by the distance and by the bytes at the
first four positions, whatever the iterator type. -/
theorem size_congr {I J : Type} [FwdIter I] [FwdIter J] (w : Nat) (first last : I)
    (first' last' : J)
    (hd : FwdIter.distance first last = FwdIter.distance first' last')
    (hk : ∀ k, k < 4 → FwdIter.deref (next first k) = FwdIter.deref (next first' k)) :
    size w first last = size w first' last' := by
  have h0 := hk 0 (by decide)
  have h1 := hk 1 (by decide)
  have h2 := hk 2 (by decide)
  have h3 := hk 3 (by decide)
  simp only [next] at h0 h1 h2 h3
  simp only [size, hd, h0, h1, h2, h3]

/-- The result of `type` is determined by the distance and by the bytes four
and five steps from `first`, whatever the iterator type. -/
theorem type_congr {I J : Type} [FwdIter I] [FwdIter J] (w : Nat) (first last : I)
    (first' last' : J)
    (hd : FwdIter.distance first last = FwdIter.distance first' last')
    (h4 : FwdIter.deref (next first 4) = FwdIter.deref (next first' 4))
    (h5 : FwdIter.deref (next first 5) = FwdIter.deref (next first' 5)) :
    type w first last = type w first' last' := by
  simp only [type, hd, h4, h5]

/-- The distance and the bytes seen through a buffer sequence are those of the
concatenated chunks. -/
theorem buffers_view (buffers : List (List Byte)) :
    FwdIter.distance (buffers_begin buffers) (buffers_end buffers)
        = FwdIter.distance (ByteIter.beginOf buffers.flatten) (ByteIter.endOf buffers.flatten)
      ∧ ∀ k, FwdIter.deref (next (buffers_begin buffers) k)
          = FwdIter.deref (next (ByteIter.beginOf buffers.flatten) k) := by
  constructor
  · rw [buffers_begin, buffers_end, BuffersIter.distance_beginOf_endOf]
    show _ = ((buffers.flatten.length : Nat) : Int) - ((0 : Nat) : Int)
    simp
  · intro k
    rw [buffers_begin, BuffersIter.deref_next_beginOf, ByteIter.deref_next]
    simp [ByteIter.beginOf]

theorem sizeOfBuffers_eq (w : Nat) (buffers : List (List Byte)) :
    sizeOfBuffers w buffers
      = size w (ByteIter.beginOf buffers.flatten) (ByteIter.endOf buffers.flatten) :=
  size_congr w _ _ _ _ (buffers_view buffers).1 (fun k _ => (buffers_view buffers).2 k)

theorem typeOfBuffers_eq (w : Nat) (buffers : List (List Byte)) :
    typeOfBuffers w buffers
      = type w (ByteIter.beginOf buffers.flatten) (ByteIter.endOf buffers.flatten) :=
  type_congr w _ _ _ _ (buffers_view buffers).1 ((buffers_view buffers).2 4)
    ((buffers_view buffers).2 5)

end Message

end ripple

/-! ## Decoding a contiguous range -/

namespace ripple

/-- C1: round trip.  For every payload of `n ≤ 2^32 - 1` bytes and every type
`t` with `0 ≤ t < 2^16`, the byte sequence made of the header (`n` as big-endian
32-bit, then `t` as big-endian 16-bit) followed by the payload is the buffer
the constructor builds, and `Message::size` and `Message::type` applied to it
return exactly `n` and exactly `t`. -/
theorem header_round_trip (w : Nat) (hw : 32 ≤ w) (categorize : Int → Int)
    (payload : List Byte) (t : Int) (hn : payload.length ≤ 2 ^ 32 - 1)
    (ht0 : 0 ≤ t) (ht : t < 2 ^ 16) :
    (Message.ctor categorize payload t).getBuffer
        = bigEndian32 payload.length ++ bigEndian16 t ++ payload
      ∧ Message.size w (ByteIter.beginOf (bigEndian32 payload.length ++ bigEndian16 t ++ payload))
          (ByteIter.endOf (bigEndian32 payload.length ++ bigEndian16 t ++ payload))
        = some payload.length
      ∧ Message.type w (ByteIter.beginOf (bigEndian32 payload.length ++ bigEndian16 t ++ payload))
          (ByteIter.endOf (bigEndian32 payload.length ++ bigEndian16 t ++ payload))
        = some t := by
  refine ⟨Message.getBuffer_ctor categorize payload t, ?_,
    Message.type_of_frame w payload.length t payload ht0 ht⟩
  rw [Message.size_of_frame w hw, Nat.mod_eq_of_lt (by omega)]

/-- Witness for C1: the payload `AA BB CC` with type 258 and a 64-bit `size_t`. -/
theorem header_round_trip_witness :
    ([0xAA, 0xBB, 0xCC] : List Byte).length ≤ 2 ^ 32 - 1 ∧ (0 : Int) ≤ 258
      ∧ (258 : Int) < 2 ^ 16
      ∧ ((Message.ctor id [0xAA, 0xBB, 0xCC] 258).getBuffer
          = bigEndian32 ([0xAA, 0xBB, 0xCC] : List Byte).length ++ bigEndian16 258
              ++ [0xAA, 0xBB, 0xCC]
        ∧ Message.size 64
            (ByteIter.beginOf (bigEndian32 ([0xAA, 0xBB, 0xCC] : List Byte).length
              ++ bigEndian16 258 ++ [0xAA, 0xBB, 0xCC]))
            (ByteIter.endOf (bigEndian32 ([0xAA, 0xBB, 0xCC] : List Byte).length
              ++ bigEndian16 258 ++ [0xAA, 0xBB, 0xCC]))
          = some ([0xAA, 0xBB, 0xCC] : List Byte).length
        ∧ Message.type 64
            (ByteIter.beginOf (bigEndian32 ([0xAA, 0xBB, 0xCC] : List Byte).length
              ++ bigEndian16 258 ++ [0xAA, 0xBB, 0xCC]))
            (ByteIter.endOf (bigEndian32 ([0xAA, 0xBB, 0xCC] : List Byte).length
              ++ bigEndian16 258 ++ [0xAA, 0xBB, 0xCC]))
          = some 258) :=
  ⟨by decide, by decide, by decide,
    header_round_trip 64 (by decide) id [0xAA, 0xBB, 0xCC] 258 (by decide) (by decide)
      (by decide)⟩

/-- C2: on a valid byte range that holds at least six bytes `b0 b1 b2 b3 b4 b5 ...`,
`Message::size (first, last)` returns `b0 * 2^24 + b1 * 2^16 + b2 * 2^8 + b3`,
the first four bytes read as a big-endian unsigned 32-bit integer, for every
`size_t` of at least 32 bits. -/
theorem size_reads_big_endian_u32 (w : Nat) (hw : 32 ≤ w) (first last : ByteIter)
    (hv : ByteIter.ValidRange first last) (b0 b1 b2 b3 b4 b5 : Byte) (rest : List Byte)
    (hb : ByteIter.bytes first last = b0 :: b1 :: b2 :: b3 :: b4 :: b5 :: rest) :
    Message.size w first last
      = some (b0.val * 2 ^ 24 + b1.val * 2 ^ 16 + b2.val * 2 ^ 8 + b3.val) := by
  exact Message.size_of_range w hw first last hv b0 b1 b2 b3 b4 b5 rest hb

/-- Witness for C2: the range over `00 00 00 03 01 02 AA BB CC` inside a longer
sequence, with a 32-bit `size_t`. -/
theorem size_reads_big_endian_u32_witness :
    ByteIter.ValidRange ⟨[7, 0, 0, 0, 3, 1, 2, 0xAA, 0xBB, 0xCC, 9], 1⟩
        ⟨[7, 0, 0, 0, 3, 1, 2, 0xAA, 0xBB, 0xCC, 9], 10⟩
      ∧ Message.size 32 (ByteIter.mk [7, 0, 0, 0, 3, 1, 2, 0xAA, 0xBB, 0xCC, 9] 1)
          (ByteIter.mk [7, 0, 0, 0, 3, 1, 2, 0xAA, 0xBB, 0xCC, 9] 10)
        = some ((0 : Byte).val * 2 ^ 24 + (0 : Byte).val * 2 ^ 16 + (0 : Byte).val * 2 ^ 8
            + (3 : Byte).val) :=
  ⟨by decide,
    size_reads_big_endian_u32 32 (by decide) ⟨[7, 0, 0, 0, 3, 1, 2, 0xAA, 0xBB, 0xCC, 9], 1⟩
      ⟨[7, 0, 0, 0, 3, 1, 2, 0xAA, 0xBB, 0xCC, 9], 10⟩ (by decide)
      0 0 0 3 1 2 [0xAA, 0xBB, 0xCC] (by decide)⟩

/-- C3: on a valid byte range that holds at least six bytes,
`Message::type (first, last)` returns `(byte[4] << 8) | byte[5]`, which is the
big-endian unsigned 16-bit value `byte[4] * 2^8 + byte[5]` of the bytes at
offsets 4 and 5. -/
theorem type_reads_big_endian_u16 (w : Nat) (first last : ByteIter)
    (hv : ByteIter.ValidRange first last) (b0 b1 b2 b3 b4 b5 : Byte) (rest : List Byte)
    (hb : ByteIter.bytes first last = b0 :: b1 :: b2 :: b3 :: b4 :: b5 :: rest) :
    Message.type w first last = some (Int.ofNat ((b4.val <<< 8) ||| b5.val))
      ∧ Message.type w first last = some ((b4.val : Int) * 2 ^ 8 + (b5.val : Int)) := by
  exact ⟨Message.type_of_range w first last hv b0 b1 b2 b3 b4 b5 rest hb,
    Message.type_of_range_value w first last hv b0 b1 b2 b3 b4 b5 rest hb⟩

/-- Witness for C3: the range over `00 00 00 03 01 02 AA BB CC`, whose type
field `01 02` is 258. -/
theorem type_reads_big_endian_u16_witness :
    ByteIter.ValidRange (ByteIter.beginOf [0, 0, 0, 3, 1, 2, 0xAA, 0xBB, 0xCC])
        (ByteIter.endOf [0, 0, 0, 3, 1, 2, 0xAA, 0xBB, 0xCC])
      ∧ Message.type 64 (ByteIter.beginOf [0, 0, 0, 3, 1, 2, 0xAA, 0xBB, 0xCC])
          (ByteIter.endOf [0, 0, 0, 3, 1, 2, 0xAA, 0xBB, 0xCC]) = some 258 :=
  ⟨by decide,
    (type_reads_big_endian_u16 64 (ByteIter.beginOf [0, 0, 0, 3, 1, 2, 0xAA, 0xBB, 0xCC])
      (ByteIter.endOf [0, 0, 0, 3, 1, 2, 0xAA, 0xBB, 0xCC]) (by decide)
      0 0 0 3 1 2 [0xAA, 0xBB, 0xCC] (by decide)).2⟩

/-- C4: on a valid byte range that holds fewer than six bytes, whatever the
bytes are, `Message::size (first, last)` returns 0. -/
theorem size_short_range_zero (w : Nat) (first last : ByteIter)
    (hv : ByteIter.ValidRange first last)
    (hlen : (ByteIter.bytes first last).length < Message.kHeaderBytes) :
    Message.size w first last = some 0 := by
  apply Message.size_of_short
  rw [ByteIter.distance_eq first last hv, toSizeT_natCast]
  exact hlen

/-- Witness for C4: five bytes whose length field `FF FF FF FF` is complete. -/
theorem size_short_range_zero_witness :
    ByteIter.ValidRange (ByteIter.beginOf [255, 255, 255, 255, 1])
        (ByteIter.endOf [255, 255, 255, 255, 1])
      ∧ (ByteIter.bytes (ByteIter.beginOf [255, 255, 255, 255, 1])
          (ByteIter.endOf [255, 255, 255, 255, 1])).length < Message.kHeaderBytes
      ∧ Message.size 64 (ByteIter.beginOf [255, 255, 255, 255, 1])
          (ByteIter.endOf [255, 255, 255, 255, 1]) = some 0 :=
  ⟨by decide, by decide,
    size_short_range_zero 64 (ByteIter.beginOf [255, 255, 255, 255, 1])
      (ByteIter.endOf [255, 255, 255, 255, 1]) (by decide) (by decide)⟩

/-- C5: on a valid byte range that holds fewer than six bytes, whatever the
bytes are, `Message::type (first, last)` returns 0. -/
theorem type_short_range_zero (w : Nat) (first last : ByteIter)
    (hv : ByteIter.ValidRange first last)
    (hlen : (ByteIter.bytes first last).length < Message.kHeaderBytes) :
    Message.type w first last = some 0 := by
  apply Message.type_of_short
  rw [ByteIter.distance_eq first last hv, toSizeT_natCast]
  exact hlen

/-- Witness for C5: the five bytes `00 00 00 03 01` of a frame cut before its
last header byte. -/
theorem type_short_range_zero_witness :
    ByteIter.ValidRange (ByteIter.beginOf [0, 0, 0, 3, 1]) (ByteIter.endOf [0, 0, 0, 3, 1])
      ∧ (ByteIter.bytes (ByteIter.beginOf [0, 0, 0, 3, 1])
          (ByteIter.endOf [0, 0, 0, 3, 1])).length < Message.kHeaderBytes
      ∧ Message.type 64 (ByteIter.beginOf [0, 0, 0, 3, 1]) (ByteIter.endOf [0, 0, 0, 3, 1])
        = some 0 :=
  ⟨by decide, by decide,
    type_short_range_zero 64 (ByteIter.beginOf [0, 0, 0, 3, 1]) (ByteIter.endOf [0, 0, 0, 3, 1])
      (by decide) (by decide)⟩

/-! ## Decoding a buffer sequence -/

/-- C6: chunking invariance.  For every list of chunks, empty chunks included,
`Message::size (buffers)` and `Message::type (buffers)` return what the range
overloads return on the concatenation of the chunks; the chunks
`[00 00 00 03 01]` and `[02 AA BB CC]`, whose header straddles the boundary,
give 3 (for a `size_t` of at least 32 bits) and 258. -/
theorem chunking_invariance (w : Nat) (buffers : List (List Byte)) :
    Message.sizeOfBuffers w buffers
        = Message.size w (ByteIter.beginOf buffers.flatten) (ByteIter.endOf buffers.flatten)
      ∧ Message.typeOfBuffers w buffers
        = Message.type w (ByteIter.beginOf buffers.flatten) (ByteIter.endOf buffers.flatten)
      ∧ (32 ≤ w → Message.sizeOfBuffers w [[0, 0, 0, 3, 1], [2, 0xAA, 0xBB, 0xCC]] = some 3)
      ∧ Message.typeOfBuffers w [[0, 0, 0, 3, 1], [2, 0xAA, 0xBB, 0xCC]] = some 258 := by
  refine ⟨Message.sizeOfBuffers_eq w buffers, Message.typeOfBuffers_eq w buffers, ?_, ?_⟩
  · intro hw
    rw [Message.sizeOfBuffers_eq]
    exact Message.size_of_range w hw _ _ (ByteIter.validRange_whole _) 0 0 0 3 1 2
      [0xAA, 0xBB, 0xCC] (by decide)
  · rw [Message.typeOfBuffers_eq]
    exact Message.type_of_range w _ _ (ByteIter.validRange_whole _) 0 0 0 3 1 2
      [0xAA, 0xBB, 0xCC] (by decide)

/-- Witness for C6: a 64-bit `size_t` and the nine bytes `00 00 00 03 01 02 AA
BB CC` cut into single bytes and empty chunks. -/
theorem chunking_invariance_witness :
    (32 : Nat) ≤ 64
      ∧ Message.sizeOfBuffers 64 [[0], [], [0, 0], [3], [], [1], [2, 0xAA], [0xBB, 0xCC]]
        = Message.size 64
            (ByteIter.beginOf
              ([[0], [], [0, 0], [3], [], [1], [2, 0xAA], [0xBB, 0xCC]] : List (List Byte)).flatten)
            (ByteIter.endOf
              ([[0], [], [0, 0], [3], [], [1], [2, 0xAA], [0xBB, 0xCC]] : List (List Byte)).flatten)
      ∧ Message.sizeOfBuffers 64 [[0, 0, 0, 3, 1], [2, 0xAA, 0xBB, 0xCC]] = some 3 :=
  ⟨by decide,
    (chunking_invariance 64 [[0], [], [0, 0], [3], [], [1], [2, 0xAA], [0xBB, 0xCC]]).1,
    (chunking_invariance 64 [[0], [], [0, 0], [3], [], [1], [2, 0xAA], [0xBB, 0xCC]]).2.2.1
      (by decide)⟩

/-- C7: for every buffer sequence whose chunks hold fewer than six bytes in
total, however the bytes are split across chunks, `Message::size (buffers)`
and `Message::type (buffers)` both return 0. -/
theorem buffers_short_zero (w : Nat) (buffers : List (List Byte))
    (hlen : (buffers.map List.length).sum < Message.kHeaderBytes) :
    Message.sizeOfBuffers w buffers = some 0 ∧ Message.typeOfBuffers w buffers = some 0 := by
  have hd : toSizeT w (FwdIter.distance (Message.buffers_begin buffers)
      (Message.buffers_end buffers)) < Message.kHeaderBytes := by
    rw [Message.buffers_begin, Message.buffers_end, BuffersIter.distance_beginOf_endOf,
      toSizeT_natCast, List.length_flatten]
    exact hlen
  exact ⟨Message.size_of_short w _ _ hd, Message.type_of_short w _ _ hd⟩

/-- Witness for C7: the five bytes `FF FF FF FF 01` split after byte 2, with
empty chunks around. -/
theorem buffers_short_zero_witness :
    (([[], [255, 255], [], [255, 255, 1], []] : List (List Byte)).map List.length).sum
        < Message.kHeaderBytes
      ∧ Message.sizeOfBuffers 64 [[], [255, 255], [], [255, 255, 1], []] = some 0
      ∧ Message.typeOfBuffers 64 [[], [255, 255], [], [255, 255, 1], []] = some 0 :=
  ⟨by decide, buffers_short_zero 64 [[], [255, 255], [], [255, 255, 1], []] (by decide)⟩

/-! ## The constructed envelope -/

/-- C8: for every message with `n` serialized bytes and every type `t` with
`0 ≤ t < 2^16`, the buffer of the constructed `Message` has length `6 + n` and
is six header bytes followed by the serialized bytes unchanged; the first four
header bytes are the big-endian digits of the 32-bit value of `n` (of `n`
itself when `n < 2^32`), the next two those of `t`.  The payload `AA BB CC`
with type 258 gives `00 00 00 03 01 02 AA BB CC`; the empty payload with type 1
gives `00 00 00 00 00 01`. -/
theorem ctor_buffer_layout (categorize : Int → Int) (message : List Byte) (t : Int)
    (ht0 : 0 ≤ t) (ht : t < 2 ^ 16) :
    (Message.ctor categorize message t).getBuffer.length
        = Message.kHeaderBytes + message.length
      ∧ (∃ b0 b1 b2 b3 b4 b5 : Byte,
          (Message.ctor categorize message t).getBuffer
              = b0 :: b1 :: b2 :: b3 :: b4 :: b5 :: message
            ∧ b0.val * 2 ^ 24 + b1.val * 2 ^ 16 + b2.val * 2 ^ 8 + b3.val
                = message.length % 2 ^ 32
            ∧ (message.length < 2 ^ 32 →
                b0.val * 2 ^ 24 + b1.val * 2 ^ 16 + b2.val * 2 ^ 8 + b3.val = message.length)
            ∧ (b4.val : Int) * 2 ^ 8 + (b5.val : Int) = t)
      ∧ (Message.ctor categorize [0xAA, 0xBB, 0xCC] 258).getBuffer
          = [0, 0, 0, 3, 1, 2, 0xAA, 0xBB, 0xCC]
      ∧ (Message.ctor categorize [] 1).getBuffer = [0, 0, 0, 0, 0, 1] := by
  refine ⟨?_, ?_, ?_, ?_⟩
  · rw [Message.getBuffer_ctor]
    simp [bigEndian32, bigEndian16, Message.kHeaderBytes]
    omega
  · refine ⟨_, _, _, _, _, _, Message.getBuffer_ctor categorize message t,
      Message.bigEndian32_value message.length, ?_, Message.bigEndian16_value t ht0 ht⟩
    intro hn
    rw [Message.bigEndian32_value, Nat.mod_eq_of_lt hn]
  · rw [Message.getBuffer_ctor]
    decide
  · rw [Message.getBuffer_ctor]
    decide

/-- Witness for C8: a two-byte message with the largest type, 65535. -/
theorem ctor_buffer_layout_witness :
    (0 : Int) ≤ 65535 ∧ (65535 : Int) < 2 ^ 16
      ∧ (Message.ctor id [0x10, 0x20] 65535).getBuffer.length
          = Message.kHeaderBytes + ([0x10, 0x20] : List Byte).length :=
  ⟨by decide, by decide,
    (ctor_buffer_layout id [0x10, 0x20] 65535 (by decide) (by decide)).1⟩

/-- C9: envelope length invariant.  For every constructed `Message` whose
payload has at most `2^32 - 1` bytes, `Message::size` decodes a body length
from `getBuffer ()`, and the length of `getBuffer ()` is `kHeaderBytes` plus
that body length. -/
theorem envelope_length_invariant (w : Nat) (hw : 32 ≤ w) (categorize : Int → Int)
    (message : List Byte) (t : Int) (hn : message.length ≤ 2 ^ 32 - 1) :
    ∃ body : Nat,
      Message.size w (ByteIter.beginOf (Message.ctor categorize message t).getBuffer)
          (ByteIter.endOf (Message.ctor categorize message t).getBuffer) = some body
        ∧ (Message.ctor categorize message t).getBuffer.length
          = Message.kHeaderBytes + body := by
  refine ⟨message.length, ?_, ?_⟩
  · rw [Message.getBuffer_ctor, Message.size_of_frame w hw, Nat.mod_eq_of_lt (by omega)]
  · rw [Message.getBuffer_ctor]
    simp [bigEndian32, bigEndian16, Message.kHeaderBytes]
    omega

/-- Witness for C9: the message `AA BB CC` with type 258 on a 32-bit `size_t`. -/
theorem envelope_length_invariant_witness :
    ([0xAA, 0xBB, 0xCC] : List Byte).length ≤ 2 ^ 32 - 1
      ∧ ∃ body : Nat,
          Message.size 32 (ByteIter.beginOf (Message.ctor id [0xAA, 0xBB, 0xCC] 258).getBuffer)
              (ByteIter.endOf (Message.ctor id [0xAA, 0xBB, 0xCC] 258).getBuffer) = some body
            ∧ (Message.ctor id [0xAA, 0xBB, 0xCC] 258).getBuffer.length
              = Message.kHeaderBytes + body :=
  ⟨by decide,
    envelope_length_invariant 32 (by decide) id [0xAA, 0xBB, 0xCC] 258 (by decide)⟩

/-- C10: for every well-formed frame with a non-empty payload of
`1 ≤ n ≤ 2^32 - 1` bytes and any type `t`, in particular any `t` with
`0 ≤ t < 2^16` (the buffer the constructor builds, the header encoding `n` and
`t` followed by the payload), `Message::size` returns a value, and that value
is not 0. -/
theorem size_nonzero_of_nonempty_payload (w : Nat) (hw : 32 ≤ w) (categorize : Int → Int)
    (payload : List Byte) (t : Int) (h1 : 1 ≤ payload.length)
    (hn : payload.length ≤ 2 ^ 32 - 1) :
    (Message.ctor categorize payload t).getBuffer
        = bigEndian32 payload.length ++ bigEndian16 t ++ payload
      ∧ ∃ v : Nat,
          Message.size w (ByteIter.beginOf (Message.ctor categorize payload t).getBuffer)
              (ByteIter.endOf (Message.ctor categorize payload t).getBuffer) = some v
            ∧ v ≠ 0 := by
  refine ⟨Message.getBuffer_ctor categorize payload t, payload.length, ?_, by omega⟩
  rw [Message.getBuffer_ctor, Message.size_of_frame w hw, Nat.mod_eq_of_lt (by omega)]

/-- Witness for C10: the one-byte payload `7F` with type 0. -/
theorem size_nonzero_of_nonempty_payload_witness :
    1 ≤ ([0x7F] : List Byte).length ∧ ([0x7F] : List Byte).length ≤ 2 ^ 32 - 1
      ∧ ∃ v : Nat,
          Message.size 64 (ByteIter.beginOf (Message.ctor id [0x7F] 0).getBuffer)
              (ByteIter.endOf (Message.ctor id [0x7F] 0).getBuffer) = some v
            ∧ v ≠ 0 :=
  ⟨by decide, by decide,
    (size_nonzero_of_nonempty_payload 64 (by decide) id [0x7F] 0 (by decide) (by decide)).2⟩

end ripple

/-! ### Calls as state transformers: the value and the log -/

namespace ripple

/-- A sequence of at least six bytes starts with six bytes. -/
theorem exists_header_of_length (l : List Byte) (h : 6 ≤ l.length) :
    ∃ (b0 b1 b2 b3 b4 b5 : Byte) (rest : List Byte),
      l = b0 :: b1 :: b2 :: b3 :: b4 :: b5 :: rest := by
  match l, h with
  | b0 :: b1 :: b2 :: b3 :: b4 :: b5 :: rest, _ => exact ⟨b0, b1, b2, b3, b4, b5, rest, rfl⟩

namespace ByteIter

/-- The number of bytes of a valid range. -/
theorem length_bytes (first last : ByteIter) (hv : ValidRange first last) :
    (bytes first last).length = last.pos - first.pos := by
  obtain ⟨_, h1, h2⟩ := hv
  simp only [bytes, List.length_take, List.length_drop]
  omega

end ByteIter

namespace Message

/-- The reading branch of `size` for any width of `size_t`: the result is the
`size_t` sum of the four shifted bytes. -/
theorem size_of_reads_raw {I : Type} [FwdIter I] (w : Nat) (first last : I)
    (b0 b1 b2 b3 : Byte)
    (h : kHeaderBytes ≤ toSizeT w (FwdIter.distance first last))
    (h0 : FwdIter.deref (next first 0) = some b0)
    (h1 : FwdIter.deref (next first 1) = some b1)
    (h2 : FwdIter.deref (next first 2) = some b2)
    (h3 : FwdIter.deref (next first 3) = some b3) :
    size w first last
      = some (addSizeT w (addSizeT w (addSizeT w (shlSizeT w b0.val 24) (shlSizeT w b1.val 16))
          (shlSizeT w b2.val 8)) b3.val) := by
  simp only [next] at h0 h1 h2 h3
  have hn : ¬ toSizeT w (FwdIter.distance first last) < kHeaderBytes := Nat.not_lt.mpr h
  simp only [size, hn, if_false, h0, h1, h2, h3, Option.bind_eq_bind, Option.some_bind]

/-- The short-input branch of `sizeExec`: the state is returned as it was. -/
theorem sizeExec_of_short {V I : Type} [FwdIter I] (addr : I → Nat) (w : Nat) (first last : I)
    (s : CallState V) (h : toSizeT w (FwdIter.distance first last) < kHeaderBytes) :
    sizeExec addr w first last s = some (0, s) := by
  simp [sizeExec, h]

/-- The short-input branch of `typeExec`: the state is returned as it was. -/
theorem typeExec_of_short {V I : Type} [FwdIter I] (addr : I → Nat) (w : Nat) (first last : I)
    (s : CallState V) (h : toSizeT w (FwdIter.distance first last) < kHeaderBytes) :
    typeExec addr w first last s = some (0, s) := by
  simp [typeExec, h]

/-- The reading branch of `sizeExec`: the view is kept and exactly the four
positions reached from `first` are added to the log, in order. -/
theorem sizeExec_of_reads {V I : Type} [FwdIter I] (addr : I → Nat) (w : Nat) (first last : I)
    (s : CallState V) (b0 b1 b2 b3 : Byte)
    (h : kHeaderBytes ≤ toSizeT w (FwdIter.distance first last))
    (h0 : FwdIter.deref (next first 0) = some b0)
    (h1 : FwdIter.deref (next first 1) = some b1)
    (h2 : FwdIter.deref (next first 2) = some b2)
    (h3 : FwdIter.deref (next first 3) = some b3) :
    sizeExec addr w first last s
      = some (addSizeT w (addSizeT w (addSizeT w (shlSizeT w b0.val 24) (shlSizeT w b1.val 16))
            (shlSizeT w b2.val 8)) b3.val,
          { view := s.view,
            reads := s.reads ++ [addr (next first 0), addr (next first 1), addr (next first 2),
              addr (next first 3)] }) := by
  simp only [next] at h0 h1 h2 h3 ⊢
  have hn : ¬ toSizeT w (FwdIter.distance first last) < kHeaderBytes := Nat.not_lt.mpr h
  simp [sizeExec, hn, CallState.deref, h0, h1, h2, h3]

/-- The reading branch of `typeExec`: the view is kept and exactly the
positions four and five steps from `first` are added to the log, in order. -/
theorem typeExec_of_reads {V I : Type} [FwdIter I] (addr : I → Nat) (w : Nat) (first last : I)
    (s : CallState V) (b4 b5 : Byte)
    (h : kHeaderBytes ≤ toSizeT w (FwdIter.distance first last))
    (h4 : FwdIter.deref (next first 4) = some b4)
    (h5 : FwdIter.deref (next first 5) = some b5) :
    typeExec addr w first last s
      = some (Int.ofNat ((b4.val <<< 8) ||| b5.val),
          { view := s.view, reads := s.reads ++ [addr (next first 4), addr (next first 5)] }) := by
  have hn : ¬ toSizeT w (FwdIter.distance first last) < kHeaderBytes := Nat.not_lt.mpr h
  simp [typeExec, hn, CallState.deref, h4, h5]

/-- The value a call of `sizeExec` returns is the value of `size`. -/
theorem sizeExec_value {V I : Type} [FwdIter I] (addr : I → Nat) (w : Nat) (first last : I)
    (s : CallState V) :
    (sizeExec addr w first last s).map Prod.fst = size w first last := by
  by_cases h : toSizeT w (FwdIter.distance first last) < kHeaderBytes
  · simp [sizeExec, size, h]
  · cases h0 : FwdIter.deref first <;>
      cases h1 : FwdIter.deref (FwdIter.incr first) <;>
      cases h2 : FwdIter.deref (FwdIter.incr (FwdIter.incr first)) <;>
      cases h3 : FwdIter.deref (FwdIter.incr (FwdIter.incr (FwdIter.incr first))) <;>
      simp [sizeExec, size, h, CallState.deref, h0, h1, h2, h3]

/-- The value a call of `typeExec` returns is the value of `type`. -/
theorem typeExec_value {V I : Type} [FwdIter I] (addr : I → Nat) (w : Nat) (first last : I)
    (s : CallState V) :
    (typeExec addr w first last s).map Prod.fst = type w first last := by
  by_cases h : toSizeT w (FwdIter.distance first last) < kHeaderBytes
  · simp [typeExec, type, h]
  · cases h4 : FwdIter.deref (next first 4) <;>
      cases h5 : FwdIter.deref (next first 5) <;>
      simp [typeExec, type, h, CallState.deref, h4, h5]

end Message

end ripple

/-! ### Calls on a contiguous view and on a buffer sequence -/

namespace ripple

theorem toSizeT_sub (w i j : Nat) (h : i ≤ j) : toSizeT w ((j : Int) - (i : Int)) = j - i := by
  have e : (j : Int) - (i : Int) = ((j - i : Nat) : Int) := by omega
  rw [e, toSizeT_natCast]

namespace ByteIter

/-- In a view of at least `j` bytes, the iterator `k` steps after position `i`
points at a byte whenever `i + k < j`. -/
theorem exists_deref_next (view : List Byte) (i j k : Nat) (hj : j ≤ view.length)
    (hk : i + k < j) : ∃ b : Byte, FwdIter.deref (next (ByteIter.mk view i) k) = some b := by
  rw [deref_next]
  have h : i + k < view.length := by omega
  exact ⟨view[i + k], List.getElem?_eq_getElem h⟩

theorem pos_next (view : List Byte) (i k : Nat) : (next (ByteIter.mk view i) k).pos = i + k := by
  rw [next_eq]

end ByteIter

namespace Message

/-- Whatever a call of `sizeExec` returns, the view in the state it returns is
the view it was given. -/
theorem sizeExec_view {V I : Type} [FwdIter I] (addr : I → Nat) (w : Nat) (first last : I)
    (s s' : CallState V) (v : Nat) (h : sizeExec addr w first last s = some (v, s')) :
    s'.view = s.view := by
  by_cases hg : toSizeT w (FwdIter.distance first last) < kHeaderBytes
  · rw [sizeExec_of_short addr w first last s hg] at h
    simp only [Option.some.injEq, Prod.mk.injEq] at h
    rw [← h.2]
  · cases h0 : FwdIter.deref first <;>
      cases h1 : FwdIter.deref (FwdIter.incr first) <;>
      cases h2 : FwdIter.deref (FwdIter.incr (FwdIter.incr first)) <;>
      cases h3 : FwdIter.deref (FwdIter.incr (FwdIter.incr (FwdIter.incr first))) <;>
      simp [sizeExec, hg, CallState.deref, h0, h1, h2, h3] at h
    rw [← h.2]

/-- Whatever a call of `typeExec` returns, the view in the state it returns is
the view it was given. -/
theorem typeExec_view {V I : Type} [FwdIter I] (addr : I → Nat) (w : Nat) (first last : I)
    (s s' : CallState V) (t : Int) (h : typeExec addr w first last s = some (t, s')) :
    s'.view = s.view := by
  by_cases hg : toSizeT w (FwdIter.distance first last) < kHeaderBytes
  · rw [typeExec_of_short addr w first last s hg] at h
    simp only [Option.some.injEq, Prod.mk.injEq] at h
    rw [← h.2]
  · cases h4 : FwdIter.deref (next first 4) <;>
      cases h5 : FwdIter.deref (next first 5) <;>
      simp [typeExec, hg, CallState.deref, h4, h5] at h
    rw [← h.2]

/-- On a valid range `size` returns a value, for every width of `size_t`. -/
theorem size_range_total (w : Nat) (first last : ByteIter)
    (hv : ByteIter.ValidRange first last) : ∃ n : Nat, size w first last = some n := by
  by_cases h : (ByteIter.bytes first last).length < kHeaderBytes
  · refine ⟨0, size_of_short w first last ?_⟩
    rw [ByteIter.distance_eq first last hv, toSizeT_natCast]
    exact h
  · obtain ⟨b0, b1, b2, b3, b4, b5, rest, hb⟩ :=
      exists_header_of_length (ByteIter.bytes first last) (Nat.le_of_not_lt h)
    obtain ⟨hd, hk⟩ := ByteIter.header_of_bytes w first last hv b0 b1 b2 b3 b4 b5 rest hb
    exact ⟨_, size_of_reads_raw w first last b0 b1 b2 b3 hd
      ((hk 0 (by decide)).trans rfl) ((hk 1 (by decide)).trans rfl)
      ((hk 2 (by decide)).trans rfl) ((hk 3 (by decide)).trans rfl)⟩

/-- On a valid range `type` returns a value between 0 and `2 ^ 16 - 1`. -/
theorem type_range_bounded (w : Nat) (first last : ByteIter)
    (hv : ByteIter.ValidRange first last) :
    ∃ t : Int, type w first last = some t ∧ 0 ≤ t ∧ t ≤ 2 ^ 16 - 1 := by
  by_cases h : (ByteIter.bytes first last).length < kHeaderBytes
  · refine ⟨0, type_of_short w first last ?_, by decide, by decide⟩
    rw [ByteIter.distance_eq first last hv, toSizeT_natCast]
    exact h
  · obtain ⟨b0, b1, b2, b3, b4, b5, rest, hb⟩ :=
      exists_header_of_length (ByteIter.bytes first last) (Nat.le_of_not_lt h)
    refine ⟨_, type_of_range_value w first last hv b0 b1 b2 b3 b4 b5 rest hb, ?_, ?_⟩
    · have h4 := b4.isLt
      have h5 := b5.isLt
      omega
    · have h4 := b4.isLt
      have h5 := b5.isLt
      omega

/-- A returned value determines a returned pair. -/
theorem exists_state_of_value {α V : Type} (r : Option (α × CallState V)) (v : α)
    (h : r.map Prod.fst = some v) : ∃ s' : CallState V, r = some (v, s') := by
  match r, h with
  | some (a, s'), h =>
    simp only [Option.map_some', Option.some.injEq] at h
    exact ⟨s', by rw [h]⟩

/-- A call of `size` on a valid part of the caller's bytes returns a value and
a state with the same view, and a second call on that state returns the same
value. -/
theorem sizeCall_repeatable (w i j : Nat) (s : CallState (List Byte)) (hij : i ≤ j)
    (hj : j ≤ s.view.length) :
    ∃ (v : Nat) (s' : CallState (List Byte)), sizeCall w i j s = some (v, s')
      ∧ s'.view = s.view ∧ (sizeCall w i j s').map Prod.fst = some v := by
  obtain ⟨v, hv⟩ := size_range_total w (ByteIter.mk s.view i) (ByteIter.mk s.view j)
    ⟨rfl, hij, hj⟩
  have h1 : (sizeCall w i j s).map Prod.fst = some v := by
    rw [sizeCall, sizeExec_value, hv]
  obtain ⟨s', hs'⟩ := exists_state_of_value _ v h1
  have hview : s'.view = s.view := sizeExec_view _ w _ _ s s' v hs'
  refine ⟨v, s', hs', hview, ?_⟩
  rw [sizeCall, sizeExec_value, hview, hv]

/-- A call of `type` on a valid part of the caller's bytes returns a value and
a state with the same view, and a second call on that state returns the same
value. -/
theorem typeCall_repeatable (w i j : Nat) (s : CallState (List Byte)) (hij : i ≤ j)
    (hj : j ≤ s.view.length) :
    ∃ (t : Int) (s' : CallState (List Byte)), typeCall w i j s = some (t, s')
      ∧ s'.view = s.view ∧ (typeCall w i j s').map Prod.fst = some t := by
  obtain ⟨t, ht, _⟩ := type_range_bounded w (ByteIter.mk s.view i) (ByteIter.mk s.view j)
    ⟨rfl, hij, hj⟩
  have h1 : (typeCall w i j s).map Prod.fst = some t := by
    rw [typeCall, typeExec_value, ht]
  obtain ⟨s', hs'⟩ := exists_state_of_value _ t h1
  have hview : s'.view = s.view := typeExec_view _ w _ _ s s' t hs'
  refine ⟨t, s', hs', hview, ?_⟩
  rw [typeCall, typeExec_value, hview, ht]

/-- A call of `size (buffers)` returns a value and a state with the same
buffer sequence, and a second call on that state returns the same value. -/
theorem sizeOfBuffersCall_repeatable (w : Nat) (c : CallState (List (List Byte))) :
    ∃ (v : Nat) (c' : CallState (List (List Byte))), sizeOfBuffersCall w c = some (v, c')
      ∧ c'.view = c.view ∧ (sizeOfBuffersCall w c').map Prod.fst = some v := by
  obtain ⟨v, hv⟩ := size_range_total w (ByteIter.beginOf c.view.flatten)
    (ByteIter.endOf c.view.flatten) (ByteIter.validRange_whole _)
  rw [← sizeOfBuffers_eq] at hv
  have h1 : (sizeOfBuffersCall w c).map Prod.fst = some v := by
    rw [sizeOfBuffersCall, sizeExec_value]
    exact hv
  obtain ⟨c', hc'⟩ := exists_state_of_value _ v h1
  have hview : c'.view = c.view := sizeExec_view _ w _ _ c c' v hc'
  refine ⟨v, c', hc', hview, ?_⟩
  rw [sizeOfBuffersCall, sizeExec_value, hview]
  exact hv

/-- A call of `type (buffers)` returns a value and a state with the same
buffer sequence, and a second call on that state returns the same value. -/
theorem typeOfBuffersCall_repeatable (w : Nat) (c : CallState (List (List Byte))) :
    ∃ (t : Int) (c' : CallState (List (List Byte))), typeOfBuffersCall w c = some (t, c')
      ∧ c'.view = c.view ∧ (typeOfBuffersCall w c').map Prod.fst = some t := by
  obtain ⟨t, ht, _⟩ := type_range_bounded w (ByteIter.beginOf c.view.flatten)
    (ByteIter.endOf c.view.flatten) (ByteIter.validRange_whole _)
  rw [← typeOfBuffers_eq] at ht
  have h1 : (typeOfBuffersCall w c).map Prod.fst = some t := by
    rw [typeOfBuffersCall, typeExec_value]
    exact ht
  obtain ⟨c', hc'⟩ := exists_state_of_value _ t h1
  have hview : c'.view = c.view := typeExec_view _ w _ _ c c' t hc'
  refine ⟨t, c', hc', hview, ?_⟩
  rw [typeOfBuffersCall, typeExec_value, hview]
  exact ht

end Message

end ripple

/-! ## A result of 0, and equality of messages -/

namespace ripple

/-- C11: a result of 0 does not imply incomplete data.  Some input of at least
six bytes makes `Message::size` return 0 and some makes `Message::type` return
0: the all-zero six-byte header gives 0 from both, and the empty-payload frame
`00 00 00 00 00 01` gives size 0 and type 1, for every width of `size_t`. -/
theorem zero_result_with_complete_header (w : Nat) :
    (∃ v : List Byte, 6 ≤ v.length
        ∧ Message.size w (ByteIter.beginOf v) (ByteIter.endOf v) = some 0)
      ∧ (∃ v : List Byte, 6 ≤ v.length
        ∧ Message.type w (ByteIter.beginOf v) (ByteIter.endOf v) = some 0)
      ∧ Message.size w (ByteIter.beginOf [0, 0, 0, 0, 0, 0]) (ByteIter.endOf [0, 0, 0, 0, 0, 0])
        = some 0
      ∧ Message.type w (ByteIter.beginOf [0, 0, 0, 0, 0, 0]) (ByteIter.endOf [0, 0, 0, 0, 0, 0])
        = some 0
      ∧ Message.size w (ByteIter.beginOf [0, 0, 0, 0, 0, 1]) (ByteIter.endOf [0, 0, 0, 0, 0, 1])
        = some 0
      ∧ Message.type w (ByteIter.beginOf [0, 0, 0, 0, 0, 1]) (ByteIter.endOf [0, 0, 0, 0, 0, 1])
        = some 1 := by
  have hz : ∀ b : Byte, Message.size w (ByteIter.beginOf [0, 0, 0, 0, 0, b])
      (ByteIter.endOf [0, 0, 0, 0, 0, b]) = some 0 := by
    intro b
    obtain ⟨hd, hk⟩ := ByteIter.header_of_bytes w _ _
      (ByteIter.validRange_whole [0, 0, 0, 0, 0, b]) 0 0 0 0 0 b [] (ByteIter.bytes_whole _)
    rw [Message.size_of_reads_raw w _ _ 0 0 0 0 hd
      ((hk 0 (by decide)).trans rfl) ((hk 1 (by decide)).trans rfl)
      ((hk 2 (by decide)).trans rfl) ((hk 3 (by decide)).trans rfl)]
    simp [addSizeT, shlSizeT]
  have ht : ∀ b : Byte, Message.type w (ByteIter.beginOf [0, 0, 0, 0, 0, b])
      (ByteIter.endOf [0, 0, 0, 0, 0, b]) = some (b.val : Int) := by
    intro b
    rw [Message.type_of_range_value w _ _
      (ByteIter.validRange_whole [0, 0, 0, 0, 0, b]) 0 0 0 0 0 b [] (ByteIter.bytes_whole _)]
    simp
  exact ⟨⟨[0, 0, 0, 0, 0, 0], by decide, hz 0⟩, ⟨[0, 0, 0, 0, 0, 0], by decide, ht 0⟩,
    hz 0, ht 0, hz 1, ht 1⟩

/-- Bytewise comparison is true exactly on equal sequences. -/
theorem bytewiseEqual_iff (x y : List Byte) : bytewiseEqual x y = true ↔ x = y := by
  induction x generalizing y with
  | nil => cases y <;> simp [bytewiseEqual]
  | cons a x ih => cases y <;> simp [bytewiseEqual, ih]

/-- C12: message equality is bytewise equality of the buffers.  `a == b` holds
iff the two buffers have the same length and the same byte at every index; so
`==` is reflexive and symmetric, is false when the lengths differ or when the
buffers differ at some index, and does not depend on the categories; two
messages built from the same bytes and type are equal whatever the category
mapping. -/
theorem equals_is_bytewise (a b : Message) :
    (a.equals b = true ↔
        a.getBuffer.length = b.getBuffer.length
          ∧ ∀ i : Nat, i < a.getBuffer.length → a.getBuffer[i]? = b.getBuffer[i]?)
      ∧ a.equals a = true
      ∧ a.equals b = b.equals a
      ∧ (a.getBuffer.length ≠ b.getBuffer.length → a.equals b = false)
      ∧ (∀ i : Nat, a.getBuffer[i]? ≠ b.getBuffer[i]? → a.equals b = false)
      ∧ (∀ c d : Int,
          Message.equals { a with mCategory := c } { b with mCategory := d } = a.equals b)
      ∧ (∀ (f g : Int → Int) (message : List Byte) (t : Int),
          (Message.ctor f message t).equals (Message.ctor g message t) = true) := by
  have key : ∀ x y : Message, x.equals y = true ↔ x.mBuffer = y.mBuffer :=
    fun x y => bytewiseEqual_iff x.mBuffer y.mBuffer
  have hne : ∀ x y : Message, x.mBuffer ≠ y.mBuffer → x.equals y = false := by
    intro x y h
    cases hxy : x.equals y
    · rfl
    · exact absurd ((key x y).mp hxy) h
  refine ⟨?_, (key a a).mpr rfl, ?_, ?_, ?_, fun c d => rfl, ?_⟩
  · rw [key]
    constructor
    · intro h
      simp [Message.getBuffer, h]
    · rintro ⟨hlen, hget⟩
      apply List.ext_getElem?
      intro i
      by_cases hi : i < a.mBuffer.length
      · exact hget i hi
      · have hi' : ¬ i < b.mBuffer.length := by
          simp only [Message.getBuffer] at hlen
          omega
        rw [List.getElem?_eq_none (Nat.le_of_not_lt hi),
          List.getElem?_eq_none (Nat.le_of_not_lt hi')]
  · cases hab : a.equals b
    · cases hba : b.equals a
      · rfl
      · have := (key b a).mp hba
        rw [(key a b).mpr this.symm] at hab
        exact absurd hab (by decide)
    · exact ((key b a).mpr ((key a b).mp hab).symm).symm
  · intro h
    apply hne
    intro hb
    exact h (by simp [Message.getBuffer, hb])
  · intro i h
    apply hne
    intro hb
    exact h (by simp [Message.getBuffer, hb])
  · intro f g message t
    rw [key]
    have hf := Message.getBuffer_ctor f message t
    have hg := Message.getBuffer_ctor g message t
    simp only [Message.getBuffer] at hf hg
    rw [hf, hg]

/-- Witness for C12: two messages with the buffer `00 00 00 01 00 05 7F` and
different categories are equal; changing the last byte makes them unequal. -/
theorem equals_is_bytewise_witness :
    Message.equals ⟨[0, 0, 0, 1, 0, 5, 0x7F], 1⟩ ⟨[0, 0, 0, 1, 0, 5, 0x7F], 2⟩
        = Message.equals ⟨[0, 0, 0, 1, 0, 5, 0x7F], 2⟩ ⟨[0, 0, 0, 1, 0, 5, 0x7F], 1⟩
      ∧ (([0, 0, 0, 1, 0, 5, 0x7F] : List Byte)[6]? ≠ ([0, 0, 0, 1, 0, 5, 0x7E] : List Byte)[6]?
        ∧ Message.equals ⟨[0, 0, 0, 1, 0, 5, 0x7F], 1⟩ ⟨[0, 0, 0, 1, 0, 5, 0x7E], 1⟩ = false) :=
  ⟨(equals_is_bytewise ⟨[0, 0, 0, 1, 0, 5, 0x7F], 1⟩ ⟨[0, 0, 0, 1, 0, 5, 0x7F], 2⟩).2.2.1,
    by decide,
    (equals_is_bytewise ⟨[0, 0, 0, 1, 0, 5, 0x7F], 1⟩ ⟨[0, 0, 0, 1, 0, 5, 0x7E], 1⟩).2.2.2.2.1 6
      (by decide)⟩

end ripple

/-! ## Effects, ranges and dependence of the decoders -/

namespace ripple

/-- C13: `Message::size` and `Message::type` do not consume or mutate their
input.  A call on a valid part `[i, j)` of the caller's bytes, or on the
caller's buffer sequence, returns a value and leaves a state whose view is the
view it was given, byte for byte; calling the function again on that state
returns the same value. -/
theorem call_leaves_view_unchanged (w i j : Nat) (s : CallState (List Byte))
    (c : CallState (List (List Byte))) (hij : i ≤ j) (hj : j ≤ s.view.length) :
    (∃ (v : Nat) (s' : CallState (List Byte)), Message.sizeCall w i j s = some (v, s')
        ∧ s'.view = s.view ∧ (Message.sizeCall w i j s').map Prod.fst = some v)
      ∧ (∃ (t : Int) (s' : CallState (List Byte)), Message.typeCall w i j s = some (t, s')
        ∧ s'.view = s.view ∧ (Message.typeCall w i j s').map Prod.fst = some t)
      ∧ (∃ (v : Nat) (c' : CallState (List (List Byte))),
          Message.sizeOfBuffersCall w c = some (v, c')
        ∧ c'.view = c.view ∧ (Message.sizeOfBuffersCall w c').map Prod.fst = some v)
      ∧ (∃ (t : Int) (c' : CallState (List (List Byte))),
          Message.typeOfBuffersCall w c = some (t, c')
        ∧ c'.view = c.view ∧ (Message.typeOfBuffersCall w c').map Prod.fst = some t) :=
  ⟨Message.sizeCall_repeatable w i j s hij hj, Message.typeCall_repeatable w i j s hij hj,
    Message.sizeOfBuffersCall_repeatable w c, Message.typeOfBuffersCall_repeatable w c⟩

/-- Witness for C13: the frame `00 00 00 03 01 02 AA BB CC` inside a longer
sequence, and the same frame cut into two chunks. -/
theorem call_leaves_view_unchanged_witness :
    (1 : Nat) ≤ 10 ∧ 10 ≤ ([7, 0, 0, 0, 3, 1, 2, 0xAA, 0xBB, 0xCC, 9] : List Byte).length
      ∧ ∃ (v : Nat) (s' : CallState (List Byte)),
          Message.sizeCall 64 1 10 ⟨[7, 0, 0, 0, 3, 1, 2, 0xAA, 0xBB, 0xCC, 9], []⟩ = some (v, s')
            ∧ s'.view = [7, 0, 0, 0, 3, 1, 2, 0xAA, 0xBB, 0xCC, 9]
            ∧ (Message.sizeCall 64 1 10 s').map Prod.fst = some v :=
  ⟨by decide, by decide,
    (call_leaves_view_unchanged 64 1 10 ⟨[7, 0, 0, 0, 3, 1, 2, 0xAA, 0xBB, 0xCC, 9], []⟩
      ⟨[[0, 0, 0, 3, 1], [2, 0xAA, 0xBB, 0xCC]], []⟩ (by decide) (by decide)).1⟩

/-- C14: result ranges.  On every valid byte range `Message::size` returns a
value in `[0, 2^32 - 1]` when `size_t` has at least 32 bits, and on a range of
at least six bytes that value is the unreduced sum of the four shifted bytes,
so the `size_t` additions never carry past 32 bits; `Message::type` returns a
value in `[0, 2^16 - 1]`, never a negative one. -/
theorem result_ranges (w : Nat) (hw : 32 ≤ w) (first last : ByteIter)
    (hv : ByteIter.ValidRange first last) :
    (∃ n : Nat, Message.size w first last = some n ∧ n ≤ 2 ^ 32 - 1)
      ∧ (∀ (b0 b1 b2 b3 b4 b5 : Byte) (rest : List Byte),
          ByteIter.bytes first last = b0 :: b1 :: b2 :: b3 :: b4 :: b5 :: rest →
          Message.size w first last
              = some (b0.val * 2 ^ 24 + b1.val * 2 ^ 16 + b2.val * 2 ^ 8 + b3.val)
            ∧ b0.val * 2 ^ 24 + b1.val * 2 ^ 16 + b2.val * 2 ^ 8 + b3.val ≤ 2 ^ 32 - 1)
      ∧ (∃ t : Int, Message.type w first last = some t ∧ 0 ≤ t ∧ t ≤ 2 ^ 16 - 1) := by
  have hbound : ∀ b0 b1 b2 b3 : Byte,
      b0.val * 2 ^ 24 + b1.val * 2 ^ 16 + b2.val * 2 ^ 8 + b3.val ≤ 2 ^ 32 - 1 := by
    intro b0 b1 b2 b3
    have h0 := b0.isLt
    have h1 := b1.isLt
    have h2 := b2.isLt
    have h3 := b3.isLt
    omega
  refine ⟨?_, ?_, Message.type_range_bounded w first last hv⟩
  · by_cases h : (ByteIter.bytes first last).length < Message.kHeaderBytes
    · refine ⟨0, Message.size_of_short w first last ?_, Nat.zero_le _⟩
      rw [ByteIter.distance_eq first last hv, toSizeT_natCast]
      exact h
    · obtain ⟨b0, b1, b2, b3, b4, b5, rest, hb⟩ :=
        exists_header_of_length (ByteIter.bytes first last) (Nat.le_of_not_lt h)
      exact ⟨_, Message.size_of_range w hw first last hv b0 b1 b2 b3 b4 b5 rest hb,
        hbound b0 b1 b2 b3⟩
  · intro b0 b1 b2 b3 b4 b5 rest hb
    exact ⟨Message.size_of_range w hw first last hv b0 b1 b2 b3 b4 b5 rest hb,
      hbound b0 b1 b2 b3⟩

/-- Witness for C14: the header `FF FF FF FF FF FF`, which gives the largest
values, on a 32-bit `size_t`. -/
theorem result_ranges_witness :
    (32 : Nat) ≤ 32
      ∧ ByteIter.ValidRange (ByteIter.beginOf [255, 255, 255, 255, 255, 255])
          (ByteIter.endOf [255, 255, 255, 255, 255, 255])
      ∧ (∃ n : Nat, Message.size 32 (ByteIter.beginOf [255, 255, 255, 255, 255, 255])
            (ByteIter.endOf [255, 255, 255, 255, 255, 255]) = some n ∧ n ≤ 2 ^ 32 - 1)
      ∧ (∃ t : Int, Message.type 32 (ByteIter.beginOf [255, 255, 255, 255, 255, 255])
            (ByteIter.endOf [255, 255, 255, 255, 255, 255]) = some t ∧ 0 ≤ t ∧ t ≤ 2 ^ 16 - 1) :=
  ⟨by decide, by decide,
    (result_ranges 32 (by decide) (ByteIter.beginOf [255, 255, 255, 255, 255, 255])
      (ByteIter.endOf [255, 255, 255, 255, 255, 255]) (by decide)).1,
    (result_ranges 32 (by decide) (ByteIter.beginOf [255, 255, 255, 255, 255, 255])
      (ByteIter.endOf [255, 255, 255, 255, 255, 255]) (by decide)).2.2⟩

end ripple

/-! ## What the results depend on, and what is read -/

namespace ripple

namespace Message

/-- On a valid range with six leading bytes, `size` is the `size_t` sum of the
first four shifted bytes, for every width of `size_t`. -/
theorem size_of_range_raw (w : Nat) (first last : ByteIter)
    (hv : ByteIter.ValidRange first last) (b0 b1 b2 b3 b4 b5 : Byte) (rest : List Byte)
    (hb : ByteIter.bytes first last = b0 :: b1 :: b2 :: b3 :: b4 :: b5 :: rest) :
    size w first last
      = some (addSizeT w (addSizeT w (addSizeT w (shlSizeT w b0.val 24) (shlSizeT w b1.val 16))
          (shlSizeT w b2.val 8)) b3.val) := by
  obtain ⟨hd, hk⟩ := ByteIter.header_of_bytes w first last hv b0 b1 b2 b3 b4 b5 rest hb
  exact size_of_reads_raw w first last b0 b1 b2 b3 hd
    ((hk 0 (by decide)).trans rfl) ((hk 1 (by decide)).trans rfl)
    ((hk 2 (by decide)).trans rfl) ((hk 3 (by decide)).trans rfl)

/-- In the reading branch, a call of `size` on the part `[i, j)` of the
caller's bytes logs the positions `i`, `i + 1`, `i + 2`, `i + 3`. -/
theorem sizeCall_of_reads (w i j : Nat) (s : CallState (List Byte)) (hij : i ≤ j)
    (hj : j ≤ s.view.length) (h6 : 6 ≤ j - i) :
    ∃ v : Nat, sizeCall w i j s
      = some (v, { view := s.view, reads := s.reads ++ [i, i + 1, i + 2, i + 3] }) := by
  have hd : kHeaderBytes ≤ toSizeT w
      (FwdIter.distance (ByteIter.mk s.view i) (ByteIter.mk s.view j)) := by
    show kHeaderBytes ≤ toSizeT w ((j : Int) - (i : Int))
    rw [toSizeT_sub w i j hij]
    exact h6
  obtain ⟨b0, h0⟩ := ByteIter.exists_deref_next s.view i j 0 hj (by omega)
  obtain ⟨b1, h1⟩ := ByteIter.exists_deref_next s.view i j 1 hj (by omega)
  obtain ⟨b2, h2⟩ := ByteIter.exists_deref_next s.view i j 2 hj (by omega)
  obtain ⟨b3, h3⟩ := ByteIter.exists_deref_next s.view i j 3 hj (by omega)
  refine ⟨addSizeT w (addSizeT w (addSizeT w (shlSizeT w b0.val 24) (shlSizeT w b1.val 16))
    (shlSizeT w b2.val 8)) b3.val, ?_⟩
  rw [sizeCall, sizeExec_of_reads ByteIter.pos w _ _ s b0 b1 b2 b3 hd h0 h1 h2 h3]
  simp only [ByteIter.pos_next, Nat.add_zero]

/-- In the reading branch, a call of `type` on the part `[i, j)` of the
caller's bytes logs the positions `i + 4`, `i + 5`. -/
theorem typeCall_of_reads (w i j : Nat) (s : CallState (List Byte)) (hij : i ≤ j)
    (hj : j ≤ s.view.length) (h6 : 6 ≤ j - i) :
    ∃ t : Int, typeCall w i j s
      = some (t, { view := s.view, reads := s.reads ++ [i + 4, i + 5] }) := by
  have hd : kHeaderBytes ≤ toSizeT w
      (FwdIter.distance (ByteIter.mk s.view i) (ByteIter.mk s.view j)) := by
    show kHeaderBytes ≤ toSizeT w ((j : Int) - (i : Int))
    rw [toSizeT_sub w i j hij]
    exact h6
  obtain ⟨b4, h4⟩ := ByteIter.exists_deref_next s.view i j 4 hj (by omega)
  obtain ⟨b5, h5⟩ := ByteIter.exists_deref_next s.view i j 5 hj (by omega)
  refine ⟨Int.ofNat ((b4.val <<< 8) ||| b5.val), ?_⟩
  rw [typeCall, typeExec_of_reads ByteIter.pos w _ _ s b4 b5 hd h4 h5]
  simp only [ByteIter.pos_next]

/-- On a short part `[i, j)` of the caller's bytes both calls return 0 and
the state as it was. -/
theorem calls_of_short (w i j : Nat) (s : CallState (List Byte)) (hij : i ≤ j)
    (h : j - i < 6) : sizeCall w i j s = some (0, s) ∧ typeCall w i j s = some (0, s) := by
  have hd : toSizeT w (FwdIter.distance (ByteIter.mk s.view i) (ByteIter.mk s.view j))
      < kHeaderBytes := by
    show toSizeT w ((j : Int) - (i : Int)) < kHeaderBytes
    rw [toSizeT_sub w i j hij]
    exact h
  exact ⟨sizeExec_of_short _ w _ _ s hd, typeExec_of_short _ w _ _ s hd⟩

end Message

/-- C15: header-only dependence.  For two valid byte ranges that each hold at
least six bytes: if they agree on bytes 0..3 then `Message::size` returns the
same on both, and if they agree on bytes 4..5 then `Message::type` returns the
same on both; appending bytes to such a range changes neither result. -/
theorem header_only_dependence (w : Nat) (first last first' last' : ByteIter)
    (hv : ByteIter.ValidRange first last) (hv' : ByteIter.ValidRange first' last')
    (h6 : 6 ≤ (ByteIter.bytes first last).length)
    (h6' : 6 ≤ (ByteIter.bytes first' last').length) :
    ((ByteIter.bytes first last).take 4 = (ByteIter.bytes first' last').take 4 →
        Message.size w first last = Message.size w first' last')
      ∧ (((ByteIter.bytes first last).drop 4).take 2
            = ((ByteIter.bytes first' last').drop 4).take 2 →
        Message.type w first last = Message.type w first' last')
      ∧ (∀ extra : List Byte,
          Message.size w (ByteIter.beginOf (ByteIter.bytes first last ++ extra))
              (ByteIter.endOf (ByteIter.bytes first last ++ extra))
            = Message.size w first last
          ∧ Message.type w (ByteIter.beginOf (ByteIter.bytes first last ++ extra))
              (ByteIter.endOf (ByteIter.bytes first last ++ extra))
            = Message.type w first last) := by
  obtain ⟨b0, b1, b2, b3, b4, b5, rest, hb⟩ := exists_header_of_length _ h6
  obtain ⟨c0, c1, c2, c3, c4, c5, rest', hc⟩ := exists_header_of_length _ h6'
  have hs := Message.size_of_range_raw w first last hv b0 b1 b2 b3 b4 b5 rest hb
  have ht := Message.type_of_range w first last hv b0 b1 b2 b3 b4 b5 rest hb
  have hs' := Message.size_of_range_raw w first' last' hv' c0 c1 c2 c3 c4 c5 rest' hc
  have ht' := Message.type_of_range w first' last' hv' c0 c1 c2 c3 c4 c5 rest' hc
  refine ⟨?_, ?_, ?_⟩
  · intro h
    rw [hb, hc] at h
    simp only [List.take_succ_cons, List.take_zero, List.cons.injEq, and_true] at h
    obtain ⟨e0, e1, e2, e3⟩ := h
    rw [hs, hs', e0, e1, e2, e3]
  · intro h
    rw [hb, hc] at h
    simp only [List.drop_succ_cons, List.drop_zero, List.take_succ_cons, List.take_zero,
      List.cons.injEq, and_true] at h
    obtain ⟨e4, e5⟩ := h
    rw [ht, ht', e4, e5]
  · intro extra
    have hbe : ByteIter.bytes (ByteIter.beginOf (ByteIter.bytes first last ++ extra))
        (ByteIter.endOf (ByteIter.bytes first last ++ extra))
        = b0 :: b1 :: b2 :: b3 :: b4 :: b5 :: (rest ++ extra) := by
      rw [ByteIter.bytes_whole, hb]
      rfl
    rw [Message.size_of_range_raw w _ _ (ByteIter.validRange_whole _) b0 b1 b2 b3 b4 b5 _ hbe,
      Message.type_of_range w _ _ (ByteIter.validRange_whole _) b0 b1 b2 b3 b4 b5 _ hbe, hs, ht]
    exact ⟨rfl, rfl⟩

/-- Witness for C15: two frames with the same header `00 00 00 03 01 02` and
different payloads, one of them inside a longer sequence. -/
theorem header_only_dependence_witness :
    ByteIter.ValidRange (ByteIter.beginOf [0, 0, 0, 3, 1, 2, 0xAA, 0xBB, 0xCC])
        (ByteIter.endOf [0, 0, 0, 3, 1, 2, 0xAA, 0xBB, 0xCC])
      ∧ ByteIter.ValidRange (ByteIter.mk [9, 0, 0, 0, 3, 1, 2, 0x11, 0x22] 1)
        (ByteIter.mk [9, 0, 0, 0, 3, 1, 2, 0x11, 0x22] 8)
      ∧ Message.size 64 (ByteIter.beginOf [0, 0, 0, 3, 1, 2, 0xAA, 0xBB, 0xCC])
          (ByteIter.endOf [0, 0, 0, 3, 1, 2, 0xAA, 0xBB, 0xCC])
        = Message.size 64 (ByteIter.mk [9, 0, 0, 0, 3, 1, 2, 0x11, 0x22] 1)
          (ByteIter.mk [9, 0, 0, 0, 3, 1, 2, 0x11, 0x22] 8)
      ∧ Message.type 64 (ByteIter.beginOf [0, 0, 0, 3, 1, 2, 0xAA, 0xBB, 0xCC])
          (ByteIter.endOf [0, 0, 0, 3, 1, 2, 0xAA, 0xBB, 0xCC])
        = Message.type 64 (ByteIter.mk [9, 0, 0, 0, 3, 1, 2, 0x11, 0x22] 1)
          (ByteIter.mk [9, 0, 0, 0, 3, 1, 2, 0x11, 0x22] 8) :=
  ⟨by decide, by decide,
    (header_only_dependence 64 (ByteIter.beginOf [0, 0, 0, 3, 1, 2, 0xAA, 0xBB, 0xCC])
      (ByteIter.endOf [0, 0, 0, 3, 1, 2, 0xAA, 0xBB, 0xCC])
      (ByteIter.mk [9, 0, 0, 0, 3, 1, 2, 0x11, 0x22] 1)
      (ByteIter.mk [9, 0, 0, 0, 3, 1, 2, 0x11, 0x22] 8)
      (by decide) (by decide) (by decide) (by decide)).1 (by decide),
    (header_only_dependence 64 (ByteIter.beginOf [0, 0, 0, 3, 1, 2, 0xAA, 0xBB, 0xCC])
      (ByteIter.endOf [0, 0, 0, 3, 1, 2, 0xAA, 0xBB, 0xCC])
      (ByteIter.mk [9, 0, 0, 0, 3, 1, 2, 0x11, 0x22] 1)
      (ByteIter.mk [9, 0, 0, 0, 3, 1, 2, 0x11, 0x22] 8)
      (by decide) (by decide) (by decide) (by decide)).2.1 (by decide)⟩

end ripple

/-! ## Injectivity, and the positions read -/

namespace ripple

/-- C16: header decoding is injective.  For two valid byte ranges that each
hold at least six bytes, with a `size_t` of at least 32 bits: if
`Message::size` returns the same on both and `Message::type` returns the same
on both, the two ranges have the same first six bytes. -/
theorem header_decoding_injective (w : Nat) (hw : 32 ≤ w) (first last first' last' : ByteIter)
    (hv : ByteIter.ValidRange first last) (hv' : ByteIter.ValidRange first' last')
    (h6 : 6 ≤ (ByteIter.bytes first last).length)
    (h6' : 6 ≤ (ByteIter.bytes first' last').length)
    (hsize : Message.size w first last = Message.size w first' last')
    (htype : Message.type w first last = Message.type w first' last') :
    (ByteIter.bytes first last).take 6 = (ByteIter.bytes first' last').take 6 := by
  obtain ⟨b0, b1, b2, b3, b4, b5, rest, hb⟩ := exists_header_of_length _ h6
  obtain ⟨c0, c1, c2, c3, c4, c5, rest', hc⟩ := exists_header_of_length _ h6'
  rw [Message.size_of_range w hw first last hv b0 b1 b2 b3 b4 b5 rest hb,
    Message.size_of_range w hw first' last' hv' c0 c1 c2 c3 c4 c5 rest' hc,
    Option.some.injEq] at hsize
  rw [Message.type_of_range_value w first last hv b0 b1 b2 b3 b4 b5 rest hb,
    Message.type_of_range_value w first' last' hv' c0 c1 c2 c3 c4 c5 rest' hc,
    Option.some.injEq] at htype
  have hb0 := b0.isLt
  have hb1 := b1.isLt
  have hb2 := b2.isLt
  have hb3 := b3.isLt
  have hb4 := b4.isLt
  have hb5 := b5.isLt
  have hc0 := c0.isLt
  have hc1 := c1.isLt
  have hc2 := c2.isLt
  have hc3 := c3.isLt
  have hc4 := c4.isLt
  have hc5 := c5.isLt
  have e0 : b0 = c0 := Fin.ext (by omega)
  have e1 : b1 = c1 := Fin.ext (by omega)
  have e2 : b2 = c2 := Fin.ext (by omega)
  have e3 : b3 = c3 := Fin.ext (by omega)
  have e4 : b4 = c4 := Fin.ext (by omega)
  have e5 : b5 = c5 := Fin.ext (by omega)
  rw [hb, hc, e0, e1, e2, e3, e4, e5]
  rfl

/-- Witness for C16: two frames that decode to size 3 and type 258, with
different payloads. -/
theorem header_decoding_injective_witness :
    (32 : Nat) ≤ 64
      ∧ Message.size 64 (ByteIter.beginOf [0, 0, 0, 3, 1, 2, 0xAA, 0xBB, 0xCC])
          (ByteIter.endOf [0, 0, 0, 3, 1, 2, 0xAA, 0xBB, 0xCC])
        = Message.size 64 (ByteIter.mk [9, 0, 0, 0, 3, 1, 2, 0x11, 0x22] 1)
          (ByteIter.mk [9, 0, 0, 0, 3, 1, 2, 0x11, 0x22] 8)
      ∧ (ByteIter.bytes (ByteIter.beginOf [0, 0, 0, 3, 1, 2, 0xAA, 0xBB, 0xCC])
          (ByteIter.endOf [0, 0, 0, 3, 1, 2, 0xAA, 0xBB, 0xCC])).take 6
        = (ByteIter.bytes (ByteIter.mk [9, 0, 0, 0, 3, 1, 2, 0x11, 0x22] 1)
          (ByteIter.mk [9, 0, 0, 0, 3, 1, 2, 0x11, 0x22] 8)).take 6 :=
  ⟨by decide, by decide,
    header_decoding_injective 64 (by decide)
      (ByteIter.beginOf [0, 0, 0, 3, 1, 2, 0xAA, 0xBB, 0xCC])
      (ByteIter.endOf [0, 0, 0, 3, 1, 2, 0xAA, 0xBB, 0xCC])
      (ByteIter.mk [9, 0, 0, 0, 3, 1, 2, 0x11, 0x22] 1)
      (ByteIter.mk [9, 0, 0, 0, 3, 1, 2, 0x11, 0x22] 8)
      (by decide) (by decide) (by decide) (by decide) (by decide) (by decide)⟩

/-- C17: no out-of-range read.  For a range `[i, j)` of the caller's bytes with
`i ≤ j ≤ length`: when it holds fewer than six bytes, `Message::size` and
`Message::type` return 0 and read no byte (the log is as it was); otherwise
`size` reads exactly the positions `i .. i + 3` and `type` exactly `i + 4` and
`i + 5`, and each of these positions is inside the range and holds a byte. -/
theorem reads_stay_in_range (w i j : Nat) (s : CallState (List Byte)) (hij : i ≤ j)
    (hj : j ≤ s.view.length) :
    (j - i < 6 →
        Message.sizeCall w i j s = some (0, s) ∧ Message.typeCall w i j s = some (0, s))
      ∧ (6 ≤ j - i →
        (∃ v : Nat, Message.sizeCall w i j s
            = some (v, { view := s.view, reads := s.reads ++ [i, i + 1, i + 2, i + 3] }))
          ∧ (∃ t : Int, Message.typeCall w i j s
            = some (t, { view := s.view, reads := s.reads ++ [i + 4, i + 5] }))
          ∧ ∀ p ∈ [i, i + 1, i + 2, i + 3, i + 4, i + 5],
              i ≤ p ∧ p < j ∧ ∃ b : Byte, s.view[p]? = some b) := by
  refine ⟨fun h => Message.calls_of_short w i j s hij h, fun h6 => ?_⟩
  refine ⟨Message.sizeCall_of_reads w i j s hij hj h6,
    Message.typeCall_of_reads w i j s hij hj h6, ?_⟩
  intro p hp
  have hp' : i ≤ p ∧ p < i + 6 := by
    simp only [List.mem_cons, List.mem_singleton, List.not_mem_nil, or_false] at hp
    omega
  have hlt : p < s.view.length := by omega
  exact ⟨hp'.1, by omega, s.view[p], List.getElem?_eq_getElem hlt⟩

/-- Witness for C17: the frame `00 00 00 03 01 02 AA BB CC` at the positions
1 to 10 of a longer sequence; `size` reads the positions 1, 2, 3, 4. -/
theorem reads_stay_in_range_witness :
    (1 : Nat) ≤ 10 ∧ 10 ≤ ([7, 0, 0, 0, 3, 1, 2, 0xAA, 0xBB, 0xCC, 9] : List Byte).length
      ∧ (6 : Nat) ≤ 10 - 1
      ∧ ∃ v : Nat, Message.sizeCall 64 1 10 ⟨[7, 0, 0, 0, 3, 1, 2, 0xAA, 0xBB, 0xCC, 9], []⟩
          = some (v, { view := [7, 0, 0, 0, 3, 1, 2, 0xAA, 0xBB, 0xCC, 9],
                       reads := [] ++ [1, 1 + 1, 1 + 2, 1 + 3] }) :=
  ⟨by decide, by decide, by decide,
    ((reads_stay_in_range 64 1 10 ⟨[7, 0, 0, 0, 3, 1, 2, 0xAA, 0xBB, 0xCC, 9], []⟩
      (by decide) (by decide)).2 (by decide)).1⟩

end ripple
